import Mathlib

/-!
Verification of the lexer (`analisador_lexical.py`) and recursive-descent
parser (`analisador_sintatico.py`) of the AnalisadorPython repository.

The Python classes are embedded shallowly: the mutable `Lexer`/`Parser`
objects become explicit state records (`Lexer.State`, `Parser.State`),
raised exceptions become `Except` error values, and each `while` loop
becomes a structurally recursive function over an explicit iteration
budget that the wrapper definition instantiates with the exact number of
loop iterations that remain possible (the loop body always moves the
cursor forward, so `length - pos` style budgets are never the binding
constraint; sufficiency is proved below as part of the termination
claims).  Graphviz rendering and `print` calls in `parse_programa` are
external I/O outside the analysis core and are not modelled.
-/

set_option maxHeartbeats 2000000

namespace Analisador

/-- Error record of `LexicalError.__init__`: message, 1-based line and
column, and the optional offending character. -/
structure LexicalError where
  message : String
  line : Nat
  column : Nat
  char : Option Char
deriving Repr, DecidableEq

/-- The `Token` dataclass: `type`, `value` (absent for the EOF marker),
`line`, `column`. -/
structure Token where
  type : String
  value : Option String
  line : Nat
  column : Nat
deriving Repr, DecidableEq

namespace Lexer

/-- Reserved-word table `Lexer.RESERVED`, keys lowercase. -/
def RESERVED : List (String × String) :=
  [("int", "INT"), ("float", "FLOAT"),
   ("inicio", "INICIO"), ("decls", "DECLS"), ("fimdecls", "FIMDECLS"),
   ("codigo", "CODIGO"), ("fimprog", "FIMPROG"),
   ("leia", "LEIA"), ("escreva", "ESCREVA"),
   ("se", "SE"), ("entao", "ENTAO"), ("bloco", "BLOCO"), ("fimbloco", "FIMBLOCO"),
   ("e", "E"), ("ou", "OU"),
   ("print", "PRINT"), ("while", "WHILE"), ("else", "ELSE")]

/-- Mutable scanner state of the `Lexer` object: the (normalized) text,
the cursor `pos`, and the `line`/`col` counters.  `current_char` and
`length` are derived (`current_char = text[pos]` while in bounds, which
`advance` maintains). -/
structure State where
  text : List Char
  pos : Nat
  line : Nat
  col : Nat
deriving Repr, DecidableEq

/-- `self.current_char`: `text[pos]` while `pos < length`, else `None`. -/
def current_char (s : State) : Option Char := s.text.get? s.pos

/-- Newline normalization done by `Lexer.__init__`:
`text.replace('\r\n', '\n').replace('\r', '\n')` fused into one pass. -/
def normalizeNewlines : List Char → List Char
  | [] => []
  | '\r' :: '\n' :: rest => '\n' :: normalizeNewlines rest
  | '\r' :: rest => '\n' :: normalizeNewlines rest
  | c :: rest => c :: normalizeNewlines rest

/-- `Lexer.__init__`: cursor at 0, line 1, column 1. -/
def init (text : String) : State :=
  ⟨normalizeNewlines text.data, 0, 1, 1⟩

/-- `Lexer.advance`: crossing a newline bumps `line` and resets `col` to 0;
the column is then incremented only if the new position is in bounds (so
after crossing a newline it becomes 1 in bounds and stays 0 past the
end). -/
def advance (s : State) : State :=
  if current_char s = some '\n' then
    if s.pos + 1 ≥ s.text.length then ⟨s.text, s.pos + 1, s.line + 1, 0⟩
    else ⟨s.text, s.pos + 1, s.line + 1, 0 + 1⟩
  else
    if s.pos + 1 ≥ s.text.length then ⟨s.text, s.pos + 1, s.line, s.col⟩
    else ⟨s.text, s.pos + 1, s.line, s.col + 1⟩

/-- `Lexer.peek`: the character `n` places ahead of the cursor, if any. -/
def peek (s : State) (n : Nat := 1) : Option Char :=
  s.text.get? (s.pos + n)

/-- Whitespace test used throughout: membership in `' \t\n'`. -/
def isWS (c : Char) : Bool := c == ' ' || c == '\t' || c == '\n'

/-- Scan helper of `peek_next_non_whitespace`: first element not in
`' \t\n'`. -/
def firstNonWS : List Char → Option Char
  | [] => none
  | c :: rest => if isWS c then firstNonWS rest else some c

/-- `Lexer.peek_next_non_whitespace`: first character at or after the
cursor that is not a space, tab or newline. -/
def peek_next_non_whitespace (s : State) : Option Char :=
  firstNonWS (s.text.drop s.pos)

/-- Loop of `Lexer.skip_whitespace`, over an explicit iteration budget. -/
def skip_whitespaceF : Nat → State → State
  | 0, s => s
  | n + 1, s =>
    match current_char s with
    | some c => if isWS c then skip_whitespaceF n (advance s) else s
    | none => s

/-- `Lexer.skip_whitespace`: the loop makes at most `length - pos` steps. -/
def skip_whitespace (s : State) : State :=
  skip_whitespaceF (s.text.length - s.pos) s

/-- Loop of `Lexer.skip_line_comment`. -/
def skip_line_commentF : Nat → State → State
  | 0, s => s
  | n + 1, s =>
    match current_char s with
    | some c => if c = '\n' then s else skip_line_commentF n (advance s)
    | none => s

/-- `Lexer.skip_line_comment`: skip to end of line (or end of input). -/
def skip_line_comment (s : State) : State :=
  skip_line_commentF (s.text.length - s.pos) s

/-- Scan loop of `Lexer.skip_block_comment` with the recorded opening
position threaded through for the unterminated-comment error. -/
def skip_block_commentF (startLine startCol : Nat) : Nat → State → Except LexicalError State
  | 0, _ => .error ⟨"Unterminated block comment", startLine, startCol, none⟩
  | n + 1, s =>
    match current_char s with
    | some c =>
      if c = '*' ∧ peek s 1 = some '/' then .ok (advance (advance s))
      else skip_block_commentF startLine startCol n (advance s)
    | none => .error ⟨"Unterminated block comment", startLine, startCol, none⟩

/-- `Lexer.skip_block_comment`: records the opening position, consumes the
`/*`, and scans for `*/`; reaching end of input is a lexical fault at the
opening position. -/
def skip_block_comment (s : State) : Except LexicalError State :=
  let s2 := advance (advance s)
  skip_block_commentF s.line s.col (s2.text.length - s2.pos + 1) s2

/-- Digit test `'0' <= c <= '9'`. -/
def isDigitChar (c : Char) : Bool := decide ('0' ≤ c) && decide (c ≤ '9')

/-- Digit-collecting `while` loop shared by both branches of
`Lexer.number`. -/
def takeDigitsF : Nat → State → List Char × State
  | 0, s => ([], s)
  | n + 1, s =>
    match current_char s with
    | some c =>
      if isDigitChar c then
        let (ds, s') := takeDigitsF n (advance s)
        (c :: ds, s')
      else ([], s)
    | none => ([], s)

/-- The digit run starting at the cursor, with the state after it. -/
def takeDigits (s : State) : List Char × State :=
  takeDigitsF (s.text.length - s.pos) s

/-- `Lexer.number`: leading-dot literals `.digit+`, integer literals, and
fractional literals `digit+.digit+`, with the three rejection rules of the
source (dot with no digits after it, reported at the literal's start; a
second dot immediately after the literal, reported at the current
position).  The source performs its final second-dot check once, after
the optional fraction block; here that check is written into both arms of
the fraction split (in the no-fraction arm its condition is the just
refuted one, mirroring that the check can only fire after a fraction). -/
def number (s : State) : Except LexicalError (Token × State) :=
  if current_char s = some '.' then
    match current_char (advance s) with
    | some c =>
      if isDigitChar c then
        match takeDigits (advance s) with
        | (ds, s2) => .ok (⟨"NUMBER", some (String.mk ('.' :: ds)), s.line, s.col⟩, s2)
      else .error ⟨"Invalid numeric constant: '.' not followed by digits", s.line, s.col, some '.'⟩
    | none => .error ⟨"Invalid numeric constant: '.' not followed by digits", s.line, s.col, some '.'⟩
  else
    match takeDigits s with
    | (ds, s1) =>
      if current_char s1 = some '.' then
        match current_char (advance s1) with
        | some c =>
          if isDigitChar c then
            match takeDigits (advance s1) with
            | (ds2, s3) =>
              if current_char s3 = some '.' then
                .error ⟨"Invalid numeric constant: multiple decimal points", s3.line, s3.col, some '.'⟩
              else
                .ok (⟨"NUMBER", some (String.mk (ds ++ '.' :: ds2)), s.line, s.col⟩, s3)
          else .error ⟨"Invalid numeric constant: digits required after decimal point", s.line, s.col, some '.'⟩
        | none => .error ⟨"Invalid numeric constant: digits required after decimal point", s.line, s.col, some '.'⟩
      else
        if current_char s1 = some '.' then
          .error ⟨"Invalid numeric constant: multiple decimal points", s1.line, s1.col, some '.'⟩
        else
          .ok (⟨"NUMBER", some (String.mk ds), s.line, s.col⟩, s1)

/-- ASCII-letter test, `string.ascii_letters`. -/
def isAsciiLetter (c : Char) : Bool :=
  (decide ('a' ≤ c) && decide (c ≤ 'z')) || (decide ('A' ≤ c) && decide (c ≤ 'Z'))

/-- First-character test for identifiers: ASCII letter or underscore. -/
def isIdentStart (c : Char) : Bool :=
  isAsciiLetter c || c == '_'

/-- Identifier-character test: letters, digits, underscore. -/
def isIdentChar (c : Char) : Bool :=
  isAsciiLetter c || c == '_' || isDigitChar c

/-- Identifier-collecting `while` loop of `identifier_or_keyword`. -/
def takeIdentF : Nat → State → List Char × State
  | 0, s => ([], s)
  | n + 1, s =>
    match current_char s with
    | some c =>
      if isIdentChar c then
        let (cs, s') := takeIdentF n (advance s)
        (c :: cs, s')
      else ([], s)
    | none => ([], s)

/-- The identifier-character run starting at the cursor. -/
def takeIdent (s : State) : List Char × State :=
  takeIdentF (s.text.length - s.pos) s

/-- ASCII lowercase of one character (`str.lower()` restricted to the
ASCII lexemes the identifier rule admits). -/
def lowerChar (c : Char) : Char :=
  if decide ('A' ≤ c) && decide (c ≤ 'Z') then Char.ofNat (c.toNat + 32) else c

/-- `result.lower()` on an identifier lexeme. -/
def lowerStr (cs : List Char) : List Char := cs.map lowerChar

/-- `Lexer.identifier_or_keyword`: first character must be an ASCII letter
or underscore, then a case-insensitive reserved-word lookup, preserving
the original lexeme. -/
def identifier_or_keyword (s : State) : Except LexicalError (Token × State) :=
  match current_char s with
  | none => .error ⟨"Unexpected end while parsing identifier", s.line, s.col, none⟩
  | some c =>
    if ¬ isIdentStart c then
      .error ⟨"Identifiers must start with ASCII letter or underscore", s.line, s.col, some c⟩
    else
      match takeIdent s with
      | (cs, s') =>
        .ok (⟨((RESERVED.lookup (String.mk (lowerStr cs))).getD "IDENTIFIER"),
          some (String.mk cs), s.line, s.col⟩, s')

/-- Guard `self.peek() is not None and '0' <= self.peek() <= '9'`. -/
def peekIsDigit (s : State) : Bool :=
  match peek s 1 with
  | some d => isDigitChar d
  | none => false

/-- Outer `while` loop of `Lexer.get_next_token`, one budget unit per
`continue` (each skip strictly advances the cursor).  `none` is the
exhausted-budget case, which the wrapper's budget rules out. -/
def get_next_tokenF : Nat → State → Option (Except LexicalError (Token × State))
  | 0, _ => none
  | n + 1, s =>
    match current_char s with
    | none => some (.ok (⟨"EOF", none, s.line, s.col⟩, s))
    | some c =>
      if isWS c then get_next_tokenF n (skip_whitespace s)
      else if c = '#' then get_next_tokenF n (skip_line_comment s)
      else if c = '/' ∧ peek s 1 = some '*' then
        match skip_block_comment s with
        | .error e => some (.error e)
        | .ok s' => get_next_tokenF n s'
      else if c = '+' then some (.ok (⟨"PLUS", some "+", s.line, s.col⟩, advance s))
      else if c = '-' then some (.ok (⟨"MINUS", some "-", s.line, s.col⟩, advance s))
      else if c = '*' then some (.ok (⟨"MUL", some "*", s.line, s.col⟩, advance s))
      else if c = '/' then some (.ok (⟨"DIV", some "/", s.line, s.col⟩, advance s))
      else if c = '(' then some (.ok (⟨"LPAREN", some "(", s.line, s.col⟩, advance s))
      else if c = ')' then some (.ok (⟨"RPAREN", some ")", s.line, s.col⟩, advance s))
      else if c = '>' then
        if peek s 1 = some '=' then some (.ok (⟨"GE", some ">=", s.line, s.col⟩, advance (advance s)))
        else some (.ok (⟨"GT", some ">", s.line, s.col⟩, advance s))
      else if c = '<' then
        if peek s 1 = some '=' then some (.ok (⟨"LE", some "<=", s.line, s.col⟩, advance (advance s)))
        else some (.ok (⟨"LT", some "<", s.line, s.col⟩, advance s))
      else if c = '!' then
        if peek s 1 = some '=' then some (.ok (⟨"NE", some "!=", s.line, s.col⟩, advance (advance s)))
        else some (.error ⟨"Unexpected '!' (expected '!=')", s.line, s.col, some '!'⟩)
      else if c = '=' then
        if peek s 1 = some '=' then some (.ok (⟨"EQ", some "==", s.line, s.col⟩, advance (advance s)))
        else some (.ok (⟨"ASSIGN", some "=", s.line, s.col⟩, advance s))
      else if isDigitChar c || (c == '.' && peekIsDigit s) then
        match number s with
        | .error e => some (.error e)
        | .ok (t, s') =>
          match peek_next_non_whitespace s' with
          | some nc =>
            if nc = '.' then
              some (.error ⟨"Invalid numeric constant: unexpected '.' after number", t.line, t.column, some '.'⟩)
            else some (.ok (t, s'))
          | none => some (.ok (t, s'))
      else if isIdentStart c then
        some (identifier_or_keyword s)
      else if c = ':' then some (.ok (⟨"COLON", some ":", s.line, s.col⟩, advance s))
      else some (.error ⟨"Invalid character", s.line, s.col, some c⟩)

/-- `Lexer.get_next_token`: skips whitespace and comments, then produces
the next token or the EOF marker, or fails with a lexical fault. -/
def get_next_token (s : State) : Option (Except LexicalError (Token × State)) :=
  get_next_tokenF (s.text.length - s.pos + 1) s

/-- Loop of `Lexer.tokenize`: accumulate tokens until the EOF marker. -/
def tokenizeF : Nat → State → Option (Except LexicalError (List Token))
  | 0, _ => none
  | n + 1, s =>
    match get_next_token s with
    | none => none
    | some (.error e) => some (.error e)
    | some (.ok (t, s')) =>
      if t.type = "EOF" then some (.ok [t])
      else
        match tokenizeF n s' with
        | none => none
        | some (.error e) => some (.error e)
        | some (.ok ts) => some (.ok (t :: ts))

/-- `Lexer.tokenize` on a raw source string: normalize, then collect all
tokens through the EOF marker (one budget unit per token; each non-EOF
token consumes at least one character). -/
def tokenize (text : String) : Option (Except LexicalError (List Token)) :=
  let s := init text
  tokenizeF (s.text.length + 1) s

/-! Basic facts about the scanner cursor. -/

theorem advance_text (s : State) : (advance s).text = s.text := by
  unfold advance
  split <;> split <;> rfl

theorem advance_pos (s : State) : (advance s).pos = s.pos + 1 := by
  unfold advance
  split <;> split <;> rfl

theorem advance_line_ge (s : State) : s.line ≤ (advance s).line := by
  unfold advance
  split <;> split <;> simp

theorem current_char_eq_head_drop (s : State) :
    current_char s = (s.text.drop s.pos).head? := by
  simp [current_char, List.head?_eq_getElem?, List.get?_eq_getElem?]

theorem current_char_some_lt {s : State} {c : Char} (h : current_char s = some c) :
    s.pos < s.text.length := by
  unfold current_char at h
  exact List.get?_eq_some.mp h |>.1

theorem current_char_none {s : State} (h : s.text.length ≤ s.pos) :
    current_char s = none := by
  unfold current_char
  exact List.get?_eq_none.mpr h

/-- Measure-style invariant: every token-positivity argument below needs
line counters that start at 1 and only grow, and a column that is
positive while the cursor is in bounds. -/
def Pinv (s : State) : Prop :=
  1 ≤ s.line ∧ (s.pos < s.text.length → 1 ≤ s.col)

theorem Pinv_advance {s : State} (h : Pinv s) : Pinv (advance s) := by
  obtain ⟨hl, _⟩ := h
  unfold Pinv Lexer.advance
  split <;> split <;> simp <;> omega

/-! The whitespace-skipping loop: text preserved, cursor monotone, and the
iteration budget is irrelevant once it covers the remaining characters. -/

theorem skip_whitespaceF_text : ∀ (n : Nat) (s : State), (skip_whitespaceF n s).text = s.text := by
  intro n
  induction n with
  | zero => intro s; rfl
  | succ k ih =>
    intro s
    cases h : current_char s with
    | none => simp only [skip_whitespaceF, h]
    | some c =>
      simp only [skip_whitespaceF, h]
      split
      · rw [ih (advance s), advance_text]
      · rfl

theorem skip_whitespaceF_pos_le : ∀ (n : Nat) (s : State), s.pos ≤ (skip_whitespaceF n s).pos := by
  intro n
  induction n with
  | zero => intro s; exact Nat.le_refl _
  | succ k ih =>
    intro s
    cases h : current_char s with
    | none => simp only [skip_whitespaceF, h]; exact Nat.le_refl _
    | some c =>
      simp only [skip_whitespaceF, h]
      split
      · have := ih (advance s)
        rw [advance_pos] at this
        omega
      · exact Nat.le_refl _

theorem skip_whitespaceF_Pinv : ∀ (n : Nat) (s : State), Pinv s → Pinv (skip_whitespaceF n s) := by
  intro n
  induction n with
  | zero => intro s h; exact h
  | succ k ih =>
    intro s h
    cases hc : current_char s with
    | none => simp only [skip_whitespaceF, hc]; exact h
    | some c =>
      simp only [skip_whitespaceF, hc]
      split
      · exact ih (advance s) (Pinv_advance h)
      · exact h

theorem skip_whitespaceF_irrel : ∀ (n m : Nat) (s : State),
    s.text.length - s.pos ≤ n → s.text.length - s.pos ≤ m →
    skip_whitespaceF n s = skip_whitespaceF m s := by
  intro n
  induction n with
  | zero =>
    intro m s hn _
    have hc : current_char s = none := current_char_none (by omega)
    cases m with
    | zero => rfl
    | succ k => simp only [skip_whitespaceF, hc]
  | succ k ih =>
    intro m s hn hm
    cases m with
    | zero =>
      have hc : current_char s = none := current_char_none (by omega)
      simp only [skip_whitespaceF, hc]
    | succ j =>
      cases hc : current_char s with
      | none => simp only [skip_whitespaceF, hc]
      | some c =>
        simp only [skip_whitespaceF, hc]
        split
        · have hlt := current_char_some_lt hc
          exact ih j (advance s)
            (by rw [advance_text, advance_pos]; omega)
            (by rw [advance_text, advance_pos]; omega)
        · rfl

theorem skip_whitespace_text (s : State) : (skip_whitespace s).text = s.text :=
  skip_whitespaceF_text _ s

theorem skip_whitespace_pos_le (s : State) : s.pos ≤ (skip_whitespace s).pos :=
  skip_whitespaceF_pos_le _ s

theorem skip_whitespace_Pinv {s : State} (h : Pinv s) : Pinv (skip_whitespace s) :=
  skip_whitespaceF_Pinv _ s h

theorem skip_whitespace_progress {s : State} {c : Char}
    (hc : current_char s = some c) (hws : isWS c = true) :
    s.pos < (skip_whitespace s).pos := by
  have hlt := current_char_some_lt hc
  unfold skip_whitespace
  obtain ⟨k, hk⟩ : ∃ k, s.text.length - s.pos = k + 1 := ⟨s.text.length - s.pos - 1, by omega⟩
  rw [hk]
  unfold skip_whitespaceF
  rw [hc]
  simp only [hws, if_true]
  have := skip_whitespaceF_pos_le k (advance s)
  rw [advance_pos] at this
  omega

/-! The line-comment loop. -/

theorem skip_line_commentF_text : ∀ (n : Nat) (s : State), (skip_line_commentF n s).text = s.text := by
  intro n
  induction n with
  | zero => intro s; rfl
  | succ k ih =>
    intro s
    cases h : current_char s with
    | none => simp only [skip_line_commentF, h]
    | some c =>
      simp only [skip_line_commentF, h]
      split
      · rfl
      · rw [ih (advance s), advance_text]

theorem skip_line_commentF_pos_le : ∀ (n : Nat) (s : State), s.pos ≤ (skip_line_commentF n s).pos := by
  intro n
  induction n with
  | zero => intro s; exact Nat.le_refl _
  | succ k ih =>
    intro s
    cases h : current_char s with
    | none => simp only [skip_line_commentF, h]; exact Nat.le_refl _
    | some c =>
      simp only [skip_line_commentF, h]
      split
      · exact Nat.le_refl _
      · have := ih (advance s)
        rw [advance_pos] at this
        omega

theorem skip_line_commentF_Pinv : ∀ (n : Nat) (s : State), Pinv s → Pinv (skip_line_commentF n s) := by
  intro n
  induction n with
  | zero => intro s h; exact h
  | succ k ih =>
    intro s h
    cases hc : current_char s with
    | none => simp only [skip_line_commentF, hc]; exact h
    | some c =>
      simp only [skip_line_commentF, hc]
      split
      · exact h
      · exact ih (advance s) (Pinv_advance h)

theorem skip_line_comment_text (s : State) : (skip_line_comment s).text = s.text :=
  skip_line_commentF_text _ s

theorem skip_line_comment_pos_le (s : State) : s.pos ≤ (skip_line_comment s).pos :=
  skip_line_commentF_pos_le _ s

theorem skip_line_comment_Pinv {s : State} (h : Pinv s) : Pinv (skip_line_comment s) :=
  skip_line_commentF_Pinv _ s h

theorem skip_line_comment_progress {s : State} {c : Char}
    (hc : current_char s = some c) (hne : ¬ c = '\n') :
    s.pos < (skip_line_comment s).pos := by
  have hlt := current_char_some_lt hc
  unfold skip_line_comment
  obtain ⟨k, hk⟩ : ∃ k, s.text.length - s.pos = k + 1 := ⟨s.text.length - s.pos - 1, by omega⟩
  rw [hk]
  simp only [skip_line_commentF, hc]
  rw [if_neg hne]
  have := skip_line_commentF_pos_le k (advance s)
  rw [advance_pos] at this
  omega

/-! The block-comment scan loop. -/

theorem skip_block_commentF_ok : ∀ (n a b : Nat) (st s' : State),
    skip_block_commentF a b n st = .ok s' →
    s'.text = st.text ∧ st.pos + 2 ≤ s'.pos ∧ (Pinv st → Pinv s') := by
  intro n
  induction n with
  | zero => intro a b st s' h; exact absurd h (by simp [skip_block_commentF])
  | succ k ih =>
    intro a b st s' h
    cases hc : current_char st with
    | none =>
      simp only [skip_block_commentF, hc] at h
      exact absurd h (by simp)
    | some c =>
      simp only [skip_block_commentF, hc] at h
      split at h
      · injection h with h
        subst h
        refine ⟨by rw [advance_text, advance_text], ?_, fun hp => Pinv_advance (Pinv_advance hp)⟩
        rw [advance_pos, advance_pos]
      · obtain ⟨h1, h2, h3⟩ := ih a b (advance st) s' h
        rw [advance_text] at h1
        rw [advance_pos] at h2
        exact ⟨h1, by omega, fun hp => h3 (Pinv_advance hp)⟩

theorem skip_block_commentF_error : ∀ (n a b : Nat) (st : State) (e : LexicalError),
    skip_block_commentF a b n st = .error e →
    e = ⟨"Unterminated block comment", a, b, none⟩ := by
  intro n
  induction n with
  | zero =>
    intro a b st e h
    simp only [skip_block_commentF] at h
    injection h with h
    exact h.symm
  | succ k ih =>
    intro a b st e h
    cases hc : current_char st with
    | none =>
      simp only [skip_block_commentF, hc] at h
      injection h with h
      exact h.symm
    | some c =>
      simp only [skip_block_commentF, hc] at h
      split at h
      · exact absurd h (by simp)
      · exact ih a b (advance st) e h

theorem skip_block_comment_ok {s s' : State} (h : skip_block_comment s = .ok s') :
    s'.text = s.text ∧ s.pos + 4 ≤ s'.pos ∧ (Pinv s → Pinv s') := by
  obtain ⟨h1, h2, h3⟩ := skip_block_commentF_ok _ _ _ _ _ h
  rw [advance_text, advance_text] at h1
  rw [advance_pos, advance_pos] at h2
  exact ⟨h1, by omega, fun hp => h3 (Pinv_advance (Pinv_advance hp))⟩

/-! The digit-collecting loop. -/

theorem takeDigitsF_spec : ∀ (n : Nat) (s : State),
    (takeDigitsF n s).2.text = s.text ∧
    (takeDigitsF n s).2.pos = s.pos + (takeDigitsF n s).1.length ∧
    (Pinv s → Pinv (takeDigitsF n s).2) := by
  intro n
  induction n with
  | zero => intro s; simp [takeDigitsF]
  | succ k ih =>
    intro s
    cases hc : current_char s with
    | none => simp [takeDigitsF, hc]
    | some c =>
      simp only [takeDigitsF, hc]
      split
      · rcases htd : takeDigitsF k (advance s) with ⟨ds, s2⟩
        obtain ⟨i1, i2, i3⟩ := ih (advance s)
        rw [htd] at i1 i2 i3
        simp only at i1 i2 i3
        rw [advance_text] at i1
        rw [advance_pos] at i2
        exact ⟨i1, by simp [i2]; omega, fun h => i3 (Pinv_advance h)⟩
      · simp

theorem takeDigits_text (s : State) : (takeDigits s).2.text = s.text :=
  (takeDigitsF_spec _ s).1

theorem takeDigits_pos (s : State) : (takeDigits s).2.pos = s.pos + (takeDigits s).1.length :=
  (takeDigitsF_spec _ s).2.1

theorem takeDigits_Pinv {s : State} (h : Pinv s) : Pinv (takeDigits s).2 :=
  (takeDigitsF_spec _ s).2.2 h

theorem takeDigits_progress {s : State} {c : Char}
    (hc : current_char s = some c) (hd : isDigitChar c = true) :
    s.pos < (takeDigits s).2.pos := by
  have hlt := current_char_some_lt hc
  unfold takeDigits
  obtain ⟨k, hk⟩ : ∃ k, s.text.length - s.pos = k + 1 := ⟨s.text.length - s.pos - 1, by omega⟩
  rw [hk]
  simp only [takeDigitsF, hc, hd, if_true]
  rcases htd : takeDigitsF k (advance s) with ⟨ds, s2⟩
  have i2 := (takeDigitsF_spec k (advance s)).2.1
  rw [htd] at i2
  simp only at i2 ⊢
  rw [advance_pos] at i2
  omega

/-! The identifier-collecting loop. -/

theorem takeIdentF_spec : ∀ (n : Nat) (s : State),
    (takeIdentF n s).2.text = s.text ∧
    (takeIdentF n s).2.pos = s.pos + (takeIdentF n s).1.length ∧
    (Pinv s → Pinv (takeIdentF n s).2) := by
  intro n
  induction n with
  | zero => intro s; simp [takeIdentF]
  | succ k ih =>
    intro s
    cases hc : current_char s with
    | none => simp [takeIdentF, hc]
    | some c =>
      simp only [takeIdentF, hc]
      split
      · rcases htd : takeIdentF k (advance s) with ⟨cs, s2⟩
        obtain ⟨i1, i2, i3⟩ := ih (advance s)
        rw [htd] at i1 i2 i3
        simp only at i1 i2 i3
        rw [advance_text] at i1
        rw [advance_pos] at i2
        exact ⟨i1, by simp [i2]; omega, fun h => i3 (Pinv_advance h)⟩
      · simp


theorem takeIdent_progress {s : State} {c : Char}
    (hc : current_char s = some c) (hd : isIdentChar c = true) :
    s.pos < (takeIdent s).2.pos := by
  have hlt := current_char_some_lt hc
  unfold takeIdent
  obtain ⟨k, hk⟩ : ∃ k, s.text.length - s.pos = k + 1 := ⟨s.text.length - s.pos - 1, by omega⟩
  rw [hk]
  simp only [takeIdentF, hc, hd, if_true]
  rcases htd : takeIdentF k (advance s) with ⟨cs, s2⟩
  have i2 := (takeIdentF_spec k (advance s)).2.1
  rw [htd] at i2
  simp only at i2 ⊢
  rw [advance_pos] at i2
  omega


theorem digit_ne {c : Char} (h : isDigitChar c = true) (x : Char) (hx : isDigitChar x = false) :
    ¬ c = x := by
  intro he
  rw [he, hx] at h
  exact absurd h (by simp)

theorem isIdentStart_isIdentChar {c : Char} (h : isIdentStart c = true) :
    isIdentChar c = true := by
  unfold isIdentStart at h
  simp only [isIdentChar, h, Bool.true_or]

/-! Inversion of `number` on success: the token carries the entry
position, the text is preserved, and the cursor does not move backwards. -/

theorem number_ok {s : State} {t : Token} {s' : State} (h : number s = .ok (t, s')) :
    s'.text = s.text ∧ s.pos ≤ s'.pos ∧ t.line = s.line ∧ t.column = s.col ∧
      t.type = "NUMBER" ∧ (Pinv s → Pinv s') := by
  unfold number at h
  by_cases hdot : current_char s = some '.'
  · rw [if_pos hdot] at h
    cases hc1 : current_char (advance s) with
    | none =>
      simp only [hc1] at h
      exact absurd h (by simp)
    | some c =>
      simp only [hc1] at h
      by_cases hd : isDigitChar c = true
      · rw [if_pos hd] at h
        rcases htd : takeDigits (advance s) with ⟨ds, s2⟩
        rw [htd] at h
        simp only [Except.ok.injEq, Prod.mk.injEq] at h
        obtain ⟨h1, h2⟩ := h
        subst h1
        subst h2
        have t1 := takeDigits_text (advance s)
        have t2 := takeDigits_pos (advance s)
        have t3 := fun hp : Pinv (advance s) => takeDigits_Pinv hp
        rw [htd] at t1 t2 t3
        simp only at t1 t2 t3
        rw [advance_text] at t1
        rw [advance_pos] at t2
        exact ⟨t1, by omega, rfl, rfl, rfl, fun hp => t3 (Pinv_advance hp)⟩
      · rw [if_neg hd] at h
        exact absurd h (by simp)
  · rw [if_neg hdot] at h
    rcases htd : takeDigits s with ⟨ds, s1⟩
    rw [htd] at h
    simp only at h
    have t1 := takeDigits_text s
    have t2 := takeDigits_pos s
    have t3 := fun hp : Pinv s => takeDigits_Pinv hp
    rw [htd] at t1 t2 t3
    simp only at t1 t2 t3
    by_cases hdot1 : current_char s1 = some '.'
    · rw [if_pos hdot1] at h
      cases hc2 : current_char (advance s1) with
      | none =>
        simp only [hc2] at h
        exact absurd h (by simp)
      | some c =>
        simp only [hc2] at h
        by_cases hd : isDigitChar c = true
        · rw [if_pos hd] at h
          rcases htd2 : takeDigits (advance s1) with ⟨ds2, s3⟩
          rw [htd2] at h
          simp only at h
          have u1 := takeDigits_text (advance s1)
          have u2 := takeDigits_pos (advance s1)
          have u3 := fun hp : Pinv (advance s1) => takeDigits_Pinv hp
          rw [htd2] at u1 u2 u3
          simp only at u1 u2 u3
          rw [advance_text, t1] at u1
          rw [advance_pos] at u2
          by_cases hdot2 : current_char s3 = some '.'
          · rw [if_pos hdot2] at h
            exact absurd h (by simp)
          · rw [if_neg hdot2] at h
            simp only [Except.ok.injEq, Prod.mk.injEq] at h
            obtain ⟨h1, h2⟩ := h
            subst h1
            subst h2
            exact ⟨u1, by omega, rfl, rfl, rfl, fun hp => u3 (Pinv_advance (t3 hp))⟩
        · rw [if_neg hd] at h
          exact absurd h (by simp)
    · rw [if_neg hdot1, if_neg hdot1] at h
      simp only [Except.ok.injEq, Prod.mk.injEq] at h
      obtain ⟨h1, h2⟩ := h
      subst h1
      subst h2
      exact ⟨t1, by omega, rfl, rfl, rfl, t3⟩

/-- Under the guard of the numeric branch of `get_next_token`, a
successful `number` strictly advances the cursor. -/
theorem number_progress {s : State} {c : Char} {t : Token} {s' : State}
    (hc : current_char s = some c)
    (hg : (isDigitChar c || (c == '.' && peekIsDigit s)) = true)
    (h : number s = .ok (t, s')) : s.pos < s'.pos := by
  rcases Bool.or_eq_true_iff.mp hg with hd | hdotg
  · -- digit start: the first digit is consumed by `takeDigits`
    have hne : ¬ current_char s = some '.' := by
      rw [hc]
      intro he
      injection he with he
      exact digit_ne hd '.' rfl he
    unfold number at h
    rw [if_neg hne] at h
    rcases htd : takeDigits s with ⟨ds, s1⟩
    rw [htd] at h
    simp only at h
    have hprog := takeDigits_progress hc hd
    rw [htd] at hprog
    simp only at hprog
    by_cases hdot1 : current_char s1 = some '.'
    · rw [if_pos hdot1] at h
      cases hc2 : current_char (advance s1) with
      | none =>
        simp only [hc2] at h
        exact absurd h (by simp)
      | some c2 =>
        simp only [hc2] at h
        by_cases hd2 : isDigitChar c2 = true
        · rw [if_pos hd2] at h
          rcases htd2 : takeDigits (advance s1) with ⟨ds2, s3⟩
          rw [htd2] at h
          simp only at h
          have u2 := takeDigits_pos (advance s1)
          rw [htd2] at u2
          simp only at u2
          rw [advance_pos] at u2
          by_cases hdot2 : current_char s3 = some '.'
          · rw [if_pos hdot2] at h
            exact absurd h (by simp)
          · rw [if_neg hdot2] at h
            simp only [Except.ok.injEq, Prod.mk.injEq] at h
            obtain ⟨h1, h2⟩ := h
            subst h2
            omega
        · rw [if_neg hd2] at h
          exact absurd h (by simp)
    · rw [if_neg hdot1, if_neg hdot1] at h
      simp only [Except.ok.injEq, Prod.mk.injEq] at h
      obtain ⟨h1, h2⟩ := h
      subst h2
      omega
  · -- dot start: the dot itself is consumed before the digits
    have hcd : c = '.' := by
      have := Bool.and_eq_true_iff.mp hdotg
      exact beq_iff_eq.mp this.1
    subst hcd
    unfold number at h
    rw [if_pos hc] at h
    cases hc1 : current_char (advance s) with
    | none =>
      simp only [hc1] at h
      exact absurd h (by simp)
    | some c1 =>
      simp only [hc1] at h
      by_cases hd1 : isDigitChar c1 = true
      · rw [if_pos hd1] at h
        rcases htd : takeDigits (advance s) with ⟨ds, s2⟩
        rw [htd] at h
        simp only [Except.ok.injEq, Prod.mk.injEq] at h
        obtain ⟨h1, h2⟩ := h
        subst h2
        have t2 := takeDigits_pos (advance s)
        rw [htd] at t2
        simp only at t2
        rw [advance_pos] at t2
        omega
      · rw [if_neg hd1] at h
        exact absurd h (by simp)

/-! Inversion of `identifier_or_keyword` on success. -/

theorem identifier_ok {s : State} {t : Token} {s' : State}
    (h : identifier_or_keyword s = .ok (t, s')) :
    s'.text = s.text ∧ s.pos < s'.pos ∧ t.line = s.line ∧ t.column = s.col ∧
      (Pinv s → Pinv s') := by
  unfold identifier_or_keyword at h
  cases hc : current_char s with
  | none =>
    simp only [hc] at h
    exact absurd h (by simp)
  | some c =>
    simp only [hc] at h
    by_cases hstart : isIdentStart c = true
    · rw [if_neg (by simpa using hstart)] at h
      rcases hti : takeIdent s with ⟨cs, s2⟩
      rw [hti] at h
      simp only [Except.ok.injEq, Prod.mk.injEq] at h
      obtain ⟨h1, h2⟩ := h
      subst h1
      subst h2
      have t1 := (takeIdentF_spec (s.text.length - s.pos) s).1
      have t3 := (takeIdentF_spec (s.text.length - s.pos) s).2.2
      have hprog := takeIdent_progress hc (isIdentStart_isIdentChar hstart)
      unfold takeIdent at hti hprog
      rw [hti] at t1 t3 hprog
      simp only at t1 t3 hprog
      exact ⟨t1, hprog, rfl, rfl, t3⟩
    · rw [if_pos (by simpa using hstart)] at h
      exact absurd h (by simp)

/-! Inversion of the token loop `get_next_tokenF` on success: the text is
preserved, the cursor never moves backwards (strictly forward for every
token but the EOF marker), and under `Pinv` the produced token carries a
positive line, and a positive column unless it is the EOF marker. -/

theorem get_next_tokenF_ok : ∀ (n : Nat) (s : State) (t : Token) (s' : State),
    get_next_tokenF n s = some (.ok (t, s')) →
    s'.text = s.text ∧ s.pos ≤ s'.pos ∧ (¬ t.type = "EOF" → s.pos < s'.pos) ∧
      (Pinv s → Pinv s' ∧ 1 ≤ t.line ∧ (¬ t.type = "EOF" → 1 ≤ t.column)) := by
  intro n
  induction n with
  | zero => intro s t s' h; exact absurd h (by simp [get_next_tokenF])
  | succ k ih =>
    intro s t s' h
    cases hc : current_char s with
    | none =>
      simp only [get_next_tokenF, hc] at h
      injection h with h
      injection h with h
      injection h with h1 h2
      subst h1
      subst h2
      exact ⟨rfl, Nat.le_refl _, fun hne => absurd rfl hne,
        fun hp => ⟨hp, hp.1, fun hne => absurd rfl hne⟩⟩
    | some c =>
      have hlt := current_char_some_lt hc
      simp only [get_next_tokenF, hc] at h
      by_cases h1 : isWS c = true
      · rw [if_pos h1] at h
        obtain ⟨i1, i2, i3, i4⟩ := ih (skip_whitespace s) t s' h
        have hp1 := skip_whitespace_progress hc h1
        have ht1 := skip_whitespace_text s
        exact ⟨by rw [i1, ht1], by omega, fun _ => by omega,
          fun hp => i4 (skip_whitespace_Pinv hp)⟩
      · rw [if_neg h1] at h
        by_cases h2 : c = '#'
        · rw [if_pos h2] at h
          obtain ⟨i1, i2, i3, i4⟩ := ih (skip_line_comment s) t s' h
          have hp1 := skip_line_comment_progress hc (by subst h2; decide)
          have ht1 := skip_line_comment_text s
          exact ⟨by rw [i1, ht1], by omega, fun _ => by omega,
            fun hp => i4 (skip_line_comment_Pinv hp)⟩
        · rw [if_neg h2] at h
          by_cases h3 : c = '/' ∧ peek s 1 = some '*'
          · rw [if_pos h3] at h
            cases hsb : skip_block_comment s with
            | error e =>
              rw [hsb] at h
              exact absurd h (by simp)
            | ok s1 =>
              rw [hsb] at h
              obtain ⟨b1, b2, b3⟩ := skip_block_comment_ok hsb
              obtain ⟨i1, i2, i3, i4⟩ := ih s1 t s' h
              exact ⟨by rw [i1, b1], by omega, fun _ => by omega, fun hp => i4 (b3 hp)⟩
          · rw [if_neg h3] at h
            by_cases h4 : c = '+'
            · rw [if_pos h4] at h
              injection h with h
              injection h with h
              injection h with ht hs
              subst ht
              subst hs
              refine ⟨advance_text s, ?_, fun _ => ?_, fun hp => ⟨Pinv_advance hp, hp.1, fun _ => hp.2 hlt⟩⟩ <;>
                rw [advance_pos] <;> omega
            · rw [if_neg h4] at h
              by_cases h5 : c = '-'
              · rw [if_pos h5] at h
                injection h with h
                injection h with h
                injection h with ht hs
                subst ht
                subst hs
                refine ⟨advance_text s, ?_, fun _ => ?_, fun hp => ⟨Pinv_advance hp, hp.1, fun _ => hp.2 hlt⟩⟩ <;>
                  rw [advance_pos] <;> omega
              · rw [if_neg h5] at h
                by_cases h6 : c = '*'
                · rw [if_pos h6] at h
                  injection h with h
                  injection h with h
                  injection h with ht hs
                  subst ht
                  subst hs
                  refine ⟨advance_text s, ?_, fun _ => ?_, fun hp => ⟨Pinv_advance hp, hp.1, fun _ => hp.2 hlt⟩⟩ <;>
                    rw [advance_pos] <;> omega
                · rw [if_neg h6] at h
                  by_cases h7 : c = '/'
                  · rw [if_pos h7] at h
                    injection h with h
                    injection h with h
                    injection h with ht hs
                    subst ht
                    subst hs
                    refine ⟨advance_text s, ?_, fun _ => ?_, fun hp => ⟨Pinv_advance hp, hp.1, fun _ => hp.2 hlt⟩⟩ <;>
                      rw [advance_pos] <;> omega
                  · rw [if_neg h7] at h
                    by_cases h8 : c = '('
                    · rw [if_pos h8] at h
                      injection h with h
                      injection h with h
                      injection h with ht hs
                      subst ht
                      subst hs
                      refine ⟨advance_text s, ?_, fun _ => ?_, fun hp => ⟨Pinv_advance hp, hp.1, fun _ => hp.2 hlt⟩⟩ <;>
                        rw [advance_pos] <;> omega
                    · rw [if_neg h8] at h
                      by_cases h9 : c = ')'
                      · rw [if_pos h9] at h
                        injection h with h
                        injection h with h
                        injection h with ht hs
                        subst ht
                        subst hs
                        refine ⟨advance_text s, ?_, fun _ => ?_, fun hp => ⟨Pinv_advance hp, hp.1, fun _ => hp.2 hlt⟩⟩ <;>
                          rw [advance_pos] <;> omega
                      · rw [if_neg h9] at h
                        by_cases h10 : c = '>'
                        · rw [if_pos h10] at h
                          by_cases hpk : peek s 1 = some '='
                          all_goals
                            first
                              | rw [if_pos hpk] at h
                              | rw [if_neg hpk] at h
                          all_goals
                            injection h with h
                            injection h with h
                            injection h with ht hs
                            subst ht
                            subst hs
                          · refine ⟨by rw [advance_text, advance_text], ?_, fun _ => ?_,
                              fun hp => ⟨Pinv_advance (Pinv_advance hp), hp.1, fun _ => hp.2 hlt⟩⟩ <;>
                              rw [advance_pos, advance_pos] <;> omega
                          · refine ⟨advance_text s, ?_, fun _ => ?_, fun hp => ⟨Pinv_advance hp, hp.1, fun _ => hp.2 hlt⟩⟩ <;>
                              rw [advance_pos] <;> omega
                        · rw [if_neg h10] at h
                          by_cases h11 : c = '<'
                          · rw [if_pos h11] at h
                            by_cases hpk : peek s 1 = some '='
                            all_goals
                              first
                                | rw [if_pos hpk] at h
                                | rw [if_neg hpk] at h
                            all_goals
                              injection h with h
                              injection h with h
                              injection h with ht hs
                              subst ht
                              subst hs
                            · refine ⟨by rw [advance_text, advance_text], ?_, fun _ => ?_,
                                fun hp => ⟨Pinv_advance (Pinv_advance hp), hp.1, fun _ => hp.2 hlt⟩⟩ <;>
                                rw [advance_pos, advance_pos] <;> omega
                            · refine ⟨advance_text s, ?_, fun _ => ?_, fun hp => ⟨Pinv_advance hp, hp.1, fun _ => hp.2 hlt⟩⟩ <;>
                                rw [advance_pos] <;> omega
                          · rw [if_neg h11] at h
                            by_cases h12 : c = '!'
                            · rw [if_pos h12] at h
                              by_cases hpk : peek s 1 = some '='
                              · rw [if_pos hpk] at h
                                injection h with h
                                injection h with h
                                injection h with ht hs
                                subst ht
                                subst hs
                                refine ⟨by rw [advance_text, advance_text], ?_, fun _ => ?_,
                                  fun hp => ⟨Pinv_advance (Pinv_advance hp), hp.1, fun _ => hp.2 hlt⟩⟩ <;>
                                  rw [advance_pos, advance_pos] <;> omega
                              · rw [if_neg hpk] at h
                                exact absurd h (by simp)
                            · rw [if_neg h12] at h
                              by_cases h13 : c = '='
                              · rw [if_pos h13] at h
                                by_cases hpk : peek s 1 = some '='
                                all_goals
                                  first
                                    | rw [if_pos hpk] at h
                                    | rw [if_neg hpk] at h
                                all_goals
                                  injection h with h
                                  injection h with h
                                  injection h with ht hs
                                  subst ht
                                  subst hs
                                · refine ⟨by rw [advance_text, advance_text], ?_, fun _ => ?_,
                                    fun hp => ⟨Pinv_advance (Pinv_advance hp), hp.1, fun _ => hp.2 hlt⟩⟩ <;>
                                    rw [advance_pos, advance_pos] <;> omega
                                · refine ⟨advance_text s, ?_, fun _ => ?_, fun hp => ⟨Pinv_advance hp, hp.1, fun _ => hp.2 hlt⟩⟩ <;>
                                    rw [advance_pos] <;> omega
                              · rw [if_neg h13] at h
                                by_cases h14 : (isDigitChar c || (c == '.' && peekIsDigit s)) = true
                                · rw [if_pos h14] at h
                                  cases hn : number s with
                                  | error e =>
                                    rw [hn] at h
                                    exact absurd h (by simp)
                                  | ok r =>
                                    rcases r with ⟨t0, s1⟩
                                    rw [hn] at h
                                    simp only at h
                                    obtain ⟨n1, n2, n3, n4, n5, n6⟩ := number_ok hn
                                    have nprog := number_progress hc h14 hn
                                    have hfin : t = t0 ∧ s' = s1 := by
                                      cases hpk : peek_next_non_whitespace s1 with
                                      | some nc =>
                                        rw [hpk] at h
                                        simp only at h
                                        by_cases hdot : nc = '.'
                                        · rw [if_pos hdot] at h
                                          exact absurd h (by simp)
                                        · rw [if_neg hdot] at h
                                          injection h with h
                                          injection h with h
                                          injection h with ht hs
                                          exact ⟨ht.symm, hs.symm⟩
                                      | none =>
                                        rw [hpk] at h
                                        simp only at h
                                        injection h with h
                                        injection h with h
                                        injection h with ht hs
                                        exact ⟨ht.symm, hs.symm⟩
                                    obtain ⟨ht, hs⟩ := hfin
                                    subst ht
                                    subst hs
                                    exact ⟨n1, by omega, fun _ => nprog,
                                      fun hp => ⟨n6 hp, by rw [n3]; exact hp.1, fun _ => by rw [n4]; exact hp.2 hlt⟩⟩
                                · rw [if_neg h14] at h
                                  by_cases h15 : isIdentStart c = true
                                  · rw [if_pos h15] at h
                                    injection h with h
                                    obtain ⟨i1, i2, i3, i4, i5⟩ := identifier_ok h
                                    exact ⟨i1, by omega, fun _ => i2,
                                      fun hp => ⟨i5 hp, by rw [i3]; exact hp.1, fun _ => by rw [i4]; exact hp.2 hlt⟩⟩
                                  · rw [if_neg h15] at h
                                    by_cases h16 : c = ':'
                                    · rw [if_pos h16] at h
                                      injection h with h
                                      injection h with h
                                      injection h with ht hs
                                      subst ht
                                      subst hs
                                      refine ⟨advance_text s, ?_, fun _ => ?_, fun hp => ⟨Pinv_advance hp, hp.1, fun _ => hp.2 hlt⟩⟩ <;>
                                        rw [advance_pos] <;> omega
                                    · rw [if_neg h16] at h
                                      exact absurd h (by simp)

/-- The wrapper's iteration budget (`length - pos + 1`) always suffices:
each `continue` of the loop strictly advances the cursor. -/
theorem get_next_tokenF_suff : ∀ (n : Nat) (s : State),
    s.text.length - s.pos + 1 ≤ n → ¬ get_next_tokenF n s = none := by
  intro n
  induction n with
  | zero => intro s hn; omega
  | succ k ih =>
    intro s hn
    cases hc : current_char s with
    | none => simp [get_next_tokenF, hc]
    | some c =>
      have hlt := current_char_some_lt hc
      simp only [get_next_tokenF, hc]
      by_cases h1 : isWS c = true
      · rw [if_pos h1]
        have hp1 := skip_whitespace_progress hc h1
        have ht1 := skip_whitespace_text s
        exact ih (skip_whitespace s) (by rw [ht1]; omega)
      · rw [if_neg h1]
        by_cases h2 : c = '#'
        · rw [if_pos h2]
          have hp1 := skip_line_comment_progress hc (by subst h2; decide)
          have ht1 := skip_line_comment_text s
          exact ih (skip_line_comment s) (by rw [ht1]; omega)
        · rw [if_neg h2]
          by_cases h3 : c = '/' ∧ peek s 1 = some '*'
          · rw [if_pos h3]
            cases hsb : skip_block_comment s with
            | error e => simp
            | ok s1 =>
              obtain ⟨b1, b2, b3⟩ := skip_block_comment_ok hsb
              exact ih s1 (by rw [b1]; omega)
          · rw [if_neg h3]
            by_cases h4 : c = '+'
            · rw [if_pos h4]; simp
            · rw [if_neg h4]
              by_cases h5 : c = '-'
              · rw [if_pos h5]; simp
              · rw [if_neg h5]
                by_cases h6 : c = '*'
                · rw [if_pos h6]; simp
                · rw [if_neg h6]
                  by_cases h7 : c = '/'
                  · rw [if_pos h7]; simp
                  · rw [if_neg h7]
                    by_cases h8 : c = '('
                    · rw [if_pos h8]; simp
                    · rw [if_neg h8]
                      by_cases h9 : c = ')'
                      · rw [if_pos h9]; simp
                      · rw [if_neg h9]
                        by_cases h10 : c = '>'
                        · rw [if_pos h10]
                          by_cases hpk : peek s 1 = some '='
                          · rw [if_pos hpk]; simp
                          · rw [if_neg hpk]; simp
                        · rw [if_neg h10]
                          by_cases h11 : c = '<'
                          · rw [if_pos h11]
                            by_cases hpk : peek s 1 = some '='
                            · rw [if_pos hpk]; simp
                            · rw [if_neg hpk]; simp
                          · rw [if_neg h11]
                            by_cases h12 : c = '!'
                            · rw [if_pos h12]
                              by_cases hpk : peek s 1 = some '='
                              · rw [if_pos hpk]; simp
                              · rw [if_neg hpk]; simp
                            · rw [if_neg h12]
                              by_cases h13 : c = '='
                              · rw [if_pos h13]
                                by_cases hpk : peek s 1 = some '='
                                · rw [if_pos hpk]; simp
                                · rw [if_neg hpk]; simp
                              · rw [if_neg h13]
                                by_cases h14 : (isDigitChar c || (c == '.' && peekIsDigit s)) = true
                                · rw [if_pos h14]
                                  rcases hn2 : number s with e | ⟨t0, s1⟩
                                  · simp
                                  · simp only
                                    cases hpk : peek_next_non_whitespace s1 with
                                    | some nc =>
                                      simp only
                                      by_cases hdot : nc = '.'
                                      · rw [if_pos hdot]; simp
                                      · rw [if_neg hdot]; simp
                                    | none => simp
                                · rw [if_neg h14]
                                  by_cases h15 : isIdentStart c = true
                                  · rw [if_pos h15]; simp
                                  · rw [if_neg h15]
                                    by_cases h16 : c = ':'
                                    · rw [if_pos h16]; simp
                                    · rw [if_neg h16]; simp

/-- Any budget at least as large as the wrapper's computes the same
result as the wrapper itself. -/
theorem get_next_tokenF_irrel : ∀ (n : Nat), ∀ (s : State),
    s.text.length - s.pos + 1 ≤ n → get_next_tokenF n s = get_next_token s := by
  intro n
  induction n using Nat.strong_induction_on with
  | _ n ih =>
    intro s hn
    match n, hn with
    | k + 1, hn =>
    unfold get_next_token
    cases hc : current_char s with
    | none => simp only [get_next_tokenF, hc]
    | some c =>
      have hlt := current_char_some_lt hc
      simp only [get_next_tokenF, hc]
      have key : ∀ s1 : State, s1.text = s.text → s.pos < s1.pos →
          get_next_tokenF k s1 = get_next_tokenF (s.text.length - s.pos) s1 := by
        intro s1 he hp
        have e1 : get_next_tokenF k s1 = get_next_token s1 :=
          ih k (by omega) s1 (by rw [he]; omega)
        have e2 : get_next_tokenF (s.text.length - s.pos) s1 = get_next_token s1 :=
          ih (s.text.length - s.pos) (by omega) s1 (by rw [he]; omega)
        rw [e1, e2]
      by_cases h1 : isWS c = true
      · rw [if_pos h1, if_pos h1]
        exact key _ (skip_whitespace_text s) (skip_whitespace_progress hc h1)
      · rw [if_neg h1, if_neg h1]
        by_cases h2 : c = '#'
        · rw [if_pos h2, if_pos h2]
          exact key _ (skip_line_comment_text s) (skip_line_comment_progress hc (by subst h2; decide))
        · rw [if_neg h2, if_neg h2]
          by_cases h3 : c = '/' ∧ peek s 1 = some '*'
          · rw [if_pos h3, if_pos h3]
            cases hsb : skip_block_comment s with
            | error e => rfl
            | ok s1 =>
              obtain ⟨b1, b2, b3⟩ := skip_block_comment_ok hsb
              simp only
              exact key s1 b1 (by omega)
          · rw [if_neg h3, if_neg h3]

theorem get_next_token_suff (s : State) : ¬ get_next_token s = none :=
  get_next_tokenF_suff _ s (Nat.le_refl _)

/-- Inversion of `get_next_token` on success (wrapper form of
`get_next_tokenF_ok`). -/
theorem get_next_token_ok {s : State} {t : Token} {s' : State}
    (h : get_next_token s = some (.ok (t, s'))) :
    s'.text = s.text ∧ s.pos ≤ s'.pos ∧ (¬ t.type = "EOF" → s.pos < s'.pos) ∧
      (Pinv s → Pinv s' ∧ 1 ≤ t.line ∧ (¬ t.type = "EOF" → 1 ≤ t.column)) :=
  get_next_tokenF_ok _ s t s' h

/-! The token-collection loop `tokenizeF`. -/

/-- Past the end of the text, `get_next_token` yields the EOF marker at
the current line and column. -/
theorem get_next_token_at_end {s : State} (h : s.text.length ≤ s.pos) :
    get_next_token s = some (.ok (⟨"EOF", none, s.line, s.col⟩, s)) := by
  have hc := current_char_none h
  unfold get_next_token
  simp only [get_next_tokenF, hc]

theorem tokenizeF_suff : ∀ (n : Nat) (s : State),
    s.text.length - s.pos + 1 ≤ n → ¬ tokenizeF n s = none := by
  intro n
  induction n with
  | zero => intro s hn; omega
  | succ k ih =>
    intro s hn
    simp only [tokenizeF]
    cases hg : get_next_token s with
    | none => exact absurd hg (get_next_token_suff s)
    | some r =>
      cases r with
      | error e => simp
      | ok r2 =>
        rcases r2 with ⟨t, s'⟩
        simp only
        by_cases ht : t.type = "EOF"
        · rw [if_pos ht]; simp
        · rw [if_neg ht]
          obtain ⟨o1, o2, o3, _⟩ := get_next_token_ok hg
          have hstrict := o3 ht
          have hin : s.pos < s.text.length := by
            by_contra hend
            rw [get_next_token_at_end (by omega)] at hg
            injection hg with hg
            injection hg with hg
            injection hg with hg1 hg2
            rw [← hg1] at ht
            exact ht rfl
          have hrec := ih s' (by rw [o1]; omega)
          cases hr : tokenizeF k s' with
          | none => exact absurd hr hrec
          | some r3 => cases r3 <;> simp

/-- Claim C9's scanner bound in wrapper form: `tokenize` never exhausts
its budget. -/
theorem tokenize_isSome (text : String) : (tokenize text).isSome := by
  unfold tokenize
  exact Option.ne_none_iff_isSome.mp
    (tokenizeF_suff ((init text).text.length + 1) (init text) (by omega))

theorem tokenizeF_last_eof : ∀ (n : Nat) (s : State) (ts : List Token),
    tokenizeF n s = some (.ok ts) →
    ¬ ts = [] ∧ (ts.getLast?).map Token.type = some "EOF" := by
  intro n
  induction n with
  | zero => intro s ts h; exact absurd h (by simp [tokenizeF])
  | succ k ih =>
    intro s ts h
    simp only [tokenizeF] at h
    cases hg : get_next_token s with
    | none => rw [hg] at h; exact absurd h (by simp)
    | some r =>
      rw [hg] at h
      cases r with
      | error e => exact absurd h (by simp)
      | ok r2 =>
        rcases r2 with ⟨t, s'⟩
        simp only at h
        by_cases ht : t.type = "EOF"
        · rw [if_pos ht] at h
          injection h with h
          injection h with h
          subst h
          exact ⟨by simp, by simp [ht]⟩
        · rw [if_neg ht] at h
          cases hr : tokenizeF k s' with
          | none => rw [hr] at h; exact absurd h (by simp)
          | some r3 =>
            rw [hr] at h
            cases r3 with
            | error e => exact absurd h (by simp)
            | ok ts' =>
              simp only at h
              injection h with h
              injection h with h
              subst h
              obtain ⟨hne, hlast⟩ := ih s' ts' hr
              rcases ts' with _ | ⟨b, l⟩
              · exact absurd rfl hne
              · exact ⟨by simp, by rw [List.getLast?_cons_cons]; exact hlast⟩

theorem tokenizeF_positions : ∀ (n : Nat) (s : State) (ts : List Token), Pinv s →
    tokenizeF n s = some (.ok ts) →
    ∀ t ∈ ts, 1 ≤ t.line ∧ (¬ t.type = "EOF" → 1 ≤ t.column) := by
  intro n
  induction n with
  | zero => intro s ts _ h; exact absurd h (by simp [tokenizeF])
  | succ k ih =>
    intro s ts hp h
    simp only [tokenizeF] at h
    cases hg : get_next_token s with
    | none => rw [hg] at h; exact absurd h (by simp)
    | some r =>
      rw [hg] at h
      cases r with
      | error e => exact absurd h (by simp)
      | ok r2 =>
        rcases r2 with ⟨t, s'⟩
        simp only at h
        obtain ⟨o1, o2, o3, o4⟩ := get_next_token_ok hg
        obtain ⟨op, ol, oc⟩ := o4 hp
        by_cases ht : t.type = "EOF"
        · rw [if_pos ht] at h
          injection h with h
          injection h with h
          subst h
          intro u hu
          rw [List.mem_singleton] at hu
          subst hu
          exact ⟨ol, oc⟩
        · rw [if_neg ht] at h
          cases hr : tokenizeF k s' with
          | none => rw [hr] at h; exact absurd h (by simp)
          | some r3 =>
            rw [hr] at h
            cases r3 with
            | error e => exact absurd h (by simp)
            | ok ts' =>
              simp only at h
              injection h with h
              injection h with h
              subst h
              intro u hu
              rw [List.mem_cons] at hu
              rcases hu with hu | hu
              · subst hu
                exact ⟨ol, oc⟩
              · exact ih s' ts' op hr u hu

theorem init_Pinv (text : String) : Pinv (init text) :=
  ⟨Nat.le_refl 1, fun _ => Nat.le_refl 1⟩

/-! Steering `get_next_token` into a chosen branch of its dispatch chain. -/

theorem digit_not_ws {c : Char} (h : isDigitChar c = true) : ¬ isWS c = true := by
  unfold isWS
  simp only [Bool.or_eq_true, beq_iff_eq]
  rintro ((he | he) | he)
  · exact digit_ne h ' ' (by decide) he
  · exact digit_ne h '\t' (by decide) he
  · exact digit_ne h '\n' (by decide) he

/-- On the guard of the numeric branch, `get_next_token` runs `number`
and then the whitespace-skipping dot lookahead. -/
theorem get_next_token_number {s : State} {c : Char}
    (hc : current_char s = some c)
    (hg : (isDigitChar c || (c == '.' && peekIsDigit s)) = true) :
    get_next_token s =
      match number s with
      | .error e => some (.error e)
      | .ok (t, s1) =>
        match peek_next_non_whitespace s1 with
        | some nc =>
          if nc = '.' then
            some (.error ⟨"Invalid numeric constant: unexpected '.' after number", t.line, t.column, some '.'⟩)
          else some (.ok (t, s1))
        | none => some (.ok (t, s1)) := by
  have hfacts : ¬ isWS c = true ∧ ¬ c = '#' ∧ ¬ (c = '/' ∧ peek s 1 = some '*') ∧
      ¬ c = '+' ∧ ¬ c = '-' ∧ ¬ c = '*' ∧ ¬ c = '/' ∧ ¬ c = '(' ∧ ¬ c = ')' ∧
      ¬ c = '>' ∧ ¬ c = '<' ∧ ¬ c = '!' ∧ ¬ c = '=' := by
    rcases Bool.or_eq_true_iff.mp hg with hd | hdot
    · exact ⟨digit_not_ws hd, digit_ne hd '#' (by decide),
        fun hx => digit_ne hd '/' (by decide) hx.1,
        digit_ne hd '+' (by decide), digit_ne hd '-' (by decide),
        digit_ne hd '*' (by decide), digit_ne hd '/' (by decide),
        digit_ne hd '(' (by decide), digit_ne hd ')' (by decide),
        digit_ne hd '>' (by decide), digit_ne hd '<' (by decide),
        digit_ne hd '!' (by decide), digit_ne hd '=' (by decide)⟩
    · have hcd : c = '.' := beq_iff_eq.mp (Bool.and_eq_true_iff.mp hdot).1
      subst hcd
      exact ⟨by decide, by decide, fun hx => absurd hx.1 (by decide),
        by decide, by decide, by decide, by decide, by decide, by decide,
        by decide, by decide, by decide, by decide⟩
  obtain ⟨f1, f2, f3, f4, f5, f6, f7, f8, f9, f10, f11, f12, f13⟩ := hfacts
  unfold get_next_token
  simp only [get_next_tokenF, hc]
  rw [if_neg f1, if_neg f2, if_neg f3, if_neg f4, if_neg f5, if_neg f6, if_neg f7,
    if_neg f8, if_neg f9, if_neg f10, if_neg f11, if_neg f12, if_neg f13, if_pos hg]

/-- A `.` whose successor is not a digit falls through every branch of
the dispatch chain and is reported as an invalid character at its own
position. -/
theorem get_next_token_lone_dot {s : State}
    (hc : current_char s = some '.') (hpd : peekIsDigit s = false) :
    get_next_token s = some (.error ⟨"Invalid character", s.line, s.col, some '.'⟩) := by
  unfold get_next_token
  simp only [get_next_tokenF, hc]
  rw [if_neg (by decide), if_neg (by decide),
    if_neg (fun hx : ('.' : Char) = '/' ∧ _ => absurd hx.1 (by decide)),
    if_neg (by decide), if_neg (by decide), if_neg (by decide), if_neg (by decide),
    if_neg (by decide), if_neg (by decide), if_neg (by decide), if_neg (by decide),
    if_neg (by decide), if_neg (by decide),
    if_neg (by simp [hpd]; decide), if_neg (by decide), if_neg (by decide)]

/-! The digit loop consumes exactly a digit run delimited by a non-digit. -/

theorem takeDigitsF_exact : ∀ (ds : List Char) (rest : List Char) (s : State) (n : Nat),
    s.text.drop s.pos = ds ++ rest →
    (∀ c ∈ ds, isDigitChar c = true) →
    (∀ c, rest.head? = some c → isDigitChar c = false) →
    ds.length ≤ n →
    (takeDigitsF n s).1 = ds ∧ (takeDigitsF n s).2.text = s.text ∧
      (takeDigitsF n s).2.pos = s.pos + ds.length := by
  intro ds
  induction ds with
  | nil =>
    intro rest s n hdrop _ hrest _
    have hcur : current_char s = rest.head? := by
      rw [current_char_eq_head_drop, hdrop]
      rfl
    cases n with
    | zero => exact ⟨rfl, rfl, by simp [takeDigitsF]⟩
    | succ k =>
      cases hc : current_char s with
      | none => simp [takeDigitsF, hc]
      | some c =>
        have hnd : isDigitChar c = false := hrest c (by rw [← hcur]; exact hc)
        simp [takeDigitsF, hc, hnd]
  | cons d ds0 ih =>
    intro rest s n hdrop hds hrest hn
    have hcur : current_char s = some d := by
      rw [current_char_eq_head_drop, hdrop]
      rfl
    have hd : isDigitChar d = true := hds d (by simp)
    cases n with
    | zero => simp at hn
    | succ k =>
      have hdrop' : (advance s).text.drop (advance s).pos = ds0 ++ rest := by
        rw [advance_text, advance_pos, ← List.tail_drop, hdrop]
        rfl
      obtain ⟨e1, e2, e3⟩ := ih rest (advance s) k hdrop'
        (fun c hcm => hds c (by simp [hcm])) hrest (by simp at hn; omega)
      rcases htd : takeDigitsF k (advance s) with ⟨ds2, s2⟩
      rw [htd] at e1 e2 e3
      simp only at e1 e2 e3
      rw [advance_text] at e2
      rw [advance_pos] at e3
      simp only [takeDigitsF, hcur, hd, if_true, htd]
      subst e1
      exact ⟨rfl, e2, by rw [List.length_cons]; omega⟩

/-- A digit run followed by a `.` that is not followed by a digit makes
`number` fail with the digits-required fault at the literal's start. -/
theorem number_trailing_dot {s : State} {ds rest' : List Char}
    (hdrop : s.text.drop s.pos = ds ++ '.' :: rest')
    (hne : ¬ ds = [])
    (hds : ∀ c ∈ ds, isDigitChar c = true)
    (hrest : ∀ c, rest'.head? = some c → isDigitChar c = false) :
    number s = .error ⟨"Invalid numeric constant: digits required after decimal point",
      s.line, s.col, some '.'⟩ := by
  obtain ⟨d, ds0, rfl⟩ : ∃ d ds0, ds = d :: ds0 := by
    cases ds with
    | nil => exact absurd rfl hne
    | cons d ds0 => exact ⟨d, ds0, rfl⟩
  have hcur : current_char s = some d := by
    rw [current_char_eq_head_drop, hdrop]
    rfl
  have hd : isDigitChar d = true := hds d (by simp)
  have hlen : (d :: ds0).length ≤ s.text.length - s.pos := by
    have hl := congrArg List.length hdrop
    rw [List.length_drop, List.length_append] at hl
    have hl2 : s.pos ≤ s.text.length := by
      by_contra hx
      rw [List.drop_eq_nil_of_le (by omega)] at hdrop
      exact absurd hdrop.symm (by simp)
    omega
  obtain ⟨e1, e2, e3⟩ := takeDigitsF_exact (d :: ds0) ('.' :: rest') s
    (s.text.length - s.pos) hdrop hds
    (fun c hcm => by
      simp only [List.head?_cons, Option.some.injEq] at hcm
      subst hcm
      decide) hlen
  have hnotdot : ¬ current_char s = some '.' := by
    rw [hcur]
    intro he
    injection he with he
    exact digit_ne hd '.' (by decide) he
  unfold number
  rw [if_neg hnotdot]
  rcases htd : takeDigits s with ⟨ds1, s1⟩
  unfold takeDigits at htd
  rw [htd] at e1 e2 e3
  simp only at e1 e2 e3
  subst e1
  simp only
  have hdrop1 : s1.text.drop s1.pos = '.' :: rest' := by
    rw [e2, e3, ← List.drop_drop, hdrop, List.drop_left]
  have hcur1 : current_char s1 = some '.' := by
    rw [current_char_eq_head_drop, hdrop1]
    rfl
  rw [if_pos hcur1]
  have hcur2 : current_char (advance s1) = rest'.head? := by
    rw [current_char_eq_head_drop, advance_text, advance_pos, ← List.tail_drop, hdrop1]
    rfl
  cases hr : rest'.head? with
  | none =>
    rw [hr] at hcur2
    rw [hcur2]
  | some c =>
    rw [hr] at hcur2
    rw [hcur2]
    simp only
    rw [if_neg (by rw [hrest c hr]; simp)]

/-! The block-comment scan: failure exactly when no closing pair exists. -/

/-- No `*/` pair occurs in `text` at or after position `start`. -/
def NoClose (text : List Char) (start : Nat) : Prop :=
  ∀ i, start ≤ i → ¬ (text.get? i = some '*' ∧ text.get? (i + 1) = some '/')

theorem skip_block_commentF_noClose : ∀ (n a b : Nat) (st : State),
    NoClose st.text st.pos → st.text.length - st.pos + 1 ≤ n →
    skip_block_commentF a b n st = .error ⟨"Unterminated block comment", a, b, none⟩ := by
  intro n
  induction n with
  | zero => intro a b st _ hn; omega
  | succ k ih =>
    intro a b st hnc hn
    cases hc : current_char st with
    | none => simp [skip_block_commentF, hc]
    | some c =>
      have hlt := current_char_some_lt hc
      simp only [skip_block_commentF, hc]
      have hno : ¬ (c = '*' ∧ peek st 1 = some '/') := by
        rintro ⟨h1, h2⟩
        subst h1
        exact hnc st.pos (Nat.le_refl _) ⟨hc, h2⟩
      rw [if_neg hno]
      apply ih
      · rw [advance_text, advance_pos]
        exact fun i hi => hnc i (by omega)
      · rw [advance_text, advance_pos]
        omega

/-- When no closing `*/` exists after the opener, `skip_block_comment`
fails at the opening position. -/
theorem skip_block_comment_unterminated {s : State}
    (hnc : NoClose s.text (s.pos + 2)) :
    skip_block_comment s = .error ⟨"Unterminated block comment", s.line, s.col, none⟩ := by
  unfold skip_block_comment
  apply skip_block_commentF_noClose
  · rw [advance_text, advance_text, advance_pos, advance_pos]
    exact hnc
  · exact Nat.le_refl _

theorem skip_block_commentF_close : ∀ (n a b : Nat) (st : State) (i : Nat),
    st.pos ≤ i → st.text.get? i = some '*' → st.text.get? (i + 1) = some '/' →
    st.text.length - st.pos + 1 ≤ n →
    ∃ s', skip_block_commentF a b n st = .ok s' := by
  intro n
  induction n with
  | zero => intro a b st i _ _ _ hn; omega
  | succ k ih =>
    intro a b st i hle hstar hslash hn
    have hilt : i < st.text.length := (List.get?_eq_some.mp hstar).1
    cases hc : current_char st with
    | none =>
      unfold current_char at hc
      have hnone : st.text.length ≤ st.pos := List.get?_eq_none.mp hc
      omega
    | some c =>
      have hlt := current_char_some_lt hc
      simp only [skip_block_commentF, hc]
      by_cases hcl : c = '*' ∧ peek st 1 = some '/'
      · rw [if_pos hcl]
        exact ⟨_, rfl⟩
      · rw [if_neg hcl]
        have hne : ¬ st.pos = i := by
          intro he
          subst he
          unfold current_char at hc
          rw [hstar] at hc
          injection hc with hc
          exact hcl ⟨hc.symm, hslash⟩
        apply ih a b (advance st) i
        · rw [advance_pos]; omega
        · rw [advance_text]; exact hstar
        · rw [advance_text]; exact hslash
        · rw [advance_text, advance_pos]; omega

/-- When a closing `*/` exists after the opener, `skip_block_comment`
succeeds. -/
theorem skip_block_comment_closed {s : State} {i : Nat}
    (hge : s.pos + 2 ≤ i)
    (hstar : s.text.get? i = some '*') (hslash : s.text.get? (i + 1) = some '/') :
    ∃ s', skip_block_comment s = .ok s' := by
  unfold skip_block_comment
  apply skip_block_commentF_close _ _ _ _ i
  · rw [advance_pos, advance_pos]; omega
  · rw [advance_text, advance_text]; exact hstar
  · rw [advance_text, advance_text]; exact hslash
  · exact Nat.le_refl _

/-- On `/*`, `get_next_token` skips the block comment and continues: the
comment itself never yields a token. -/
theorem get_next_token_block {s : State}
    (hc : current_char s = some '/') (hpk : peek s 1 = some '*') :
    get_next_token s =
      match skip_block_comment s with
      | .error e => some (.error e)
      | .ok s1 => get_next_token s1 := by
  have hlt := current_char_some_lt hc
  unfold get_next_token
  simp only [get_next_tokenF, hc]
  rw [if_neg (by decide), if_neg (by decide), if_pos (by simp [hpk])]
  cases hsb : skip_block_comment s with
  | error e => simp only
  | ok s1 =>
    simp only
    obtain ⟨b1, b2, _⟩ := skip_block_comment_ok hsb
    exact get_next_tokenF_irrel _ s1 (by rw [b1]; omega)

end Lexer

/-- Syntax-fault record of `SyntaxError_`: the message and the offending
token (the formatted string of the Python exception is built from exactly
these two fields). -/
structure SyntaxFault where
  message : String
  token : Token
deriving Repr, DecidableEq

/-- A node of the syntax tree: `label` and ordered children. -/
inductive Node where
  | mk (label : String) (children : List Node)
deriving Repr

/-- The label of a node. -/
def Node.label : Node → String
  | .mk l _ => l

/-- The children of a node. -/
def Node.children : Node → List Node
  | .mk _ cs => cs

namespace Parser

/-- Parser state: the token sequence produced by the lexer and the cursor
`pos`; `current_token = tokens[pos]` is derived. -/
structure State where
  tokens : List Token
  pos : Nat
deriving Repr

/-- `self.current_token`.  The Python expression `self.tokens[self.pos]`
is only ever evaluated in bounds (the list returned by `tokenize` is
non-empty and `advance` never leaves it); the default token of the
out-of-bounds case is inert (its type matches no grammar rule). -/
def current_token (p : State) : Token :=
  (p.tokens.get? p.pos).getD ⟨"", none, 0, 0⟩

/-- `Parser.advance`: move forward only while strictly before the last
position. -/
def advance (p : State) : State :=
  if p.pos < p.tokens.length - 1 then ⟨p.tokens, p.pos + 1⟩ else p

/-- Python `str(...)` of an optional lexeme inside an f-string (`None`
prints as `"None"`). -/
def pyStr : Option String → String
  | some v => v
  | none => "None"

/-- `Parser.eat`: check the current token's type, build the leaf node
labeled `TYPE(value)` (or bare `TYPE` when the value is falsy), advance;
otherwise a syntax fault naming expected and found. -/
def eat (tokenType : String) (p : State) : Except SyntaxFault (Node × State) :=
  if (current_token p).type = tokenType then
    .ok (.mk
      (match (current_token p).value with
        | some v => if v = "" then tokenType else tokenType ++ "(" ++ v ++ ")"
        | none => tokenType) [],
      advance p)
  else
    .error ⟨"Esperado " ++ tokenType ++ ", encontrado " ++ (current_token p).type,
      current_token p⟩

/-- `Parser.peek_next_type`: type of the token `offset` ahead, or `None`
past the end. -/
def peek_next_type (p : State) (offset : Nat := 1) : Option String :=
  if h : p.pos + offset < p.tokens.length then some ((p.tokens.get ⟨p.pos + offset, h⟩).type)
  else none

/-- `Parser.peek_is_colon`: is the next token a `COLON`? -/
def peek_is_colon (p : State) : Bool :=
  if h : p.pos + 1 < p.tokens.length then (p.tokens.get ⟨p.pos + 1, h⟩).type == "COLON"
  else false

/-- Result of a parsing procedure: `none` when the iteration budget runs
out (impossible on EOF-terminated sequences, proved below), otherwise a
fault or a tree with the state after it. -/
def PRes (α : Type) : Type := Option (Except SyntaxFault (α × State))

/-- Sequence two parsing steps, propagating budget exhaustion and faults. -/
def pbind {α β : Type} (x : PRes α) (f : α → State → PRes β) : PRes β :=
  match x with
  | none => none
  | some (.error e) => some (.error e)
  | some (.ok (a, p)) => f a p

/-- Result of a step that cannot run out of budget, lifted into `PRes`. -/
def plift {α : Type} (x : Except SyntaxFault (α × State)) : PRes α :=
  some x

/-- `Parser.parse_fator`, with the recursive call to
`parse_expressao_logica` abstracted as `pl`:
`fator := NUMBER | IDENTIFIER | '(' expressao_logica ')'`. -/
def parse_fatorGo (pl : State → PRes Node) (p : State) : PRes Node :=
  if (current_token p).type = "NUMBER" ∨ (current_token p).type = "IDENTIFIER" then
    plift (.ok (.mk ((current_token p).type ++ "(" ++ pyStr (current_token p).value ++ ")") [],
      advance p))
  else if (current_token p).type = "LPAREN" then
    pbind (plift (eat "LPAREN" p)) fun lp p1 =>
    pbind (pl p1) fun e p2 =>
    pbind (plift (eat "RPAREN" p2)) fun rp p3 =>
    plift (.ok (.mk "Group" [lp, e, rp], p3))
  else
    plift (.error ⟨"Fator inesperado na expressão", current_token p⟩)

/-- The `while` loop of `parse_termo` as an accumulator: on each `MUL` or
`DIV`, wrap the accumulated subtree and the next factor under a node
labeled with the operator lexeme (the pop-last-child-and-rewrap pattern of
the source). -/
def termoLoopGo (pl : State → PRes Node) : Nat → Node → State → PRes Node
  | 0, _, _ => none
  | n + 1, acc, p =>
    if (current_token p).type = "MUL" ∨ (current_token p).type = "DIV" then
      pbind (parse_fatorGo pl (advance p)) fun f p2 =>
      termoLoopGo pl n (.mk (pyStr (current_token p).value) [acc, f]) p2
    else plift (.ok (acc, p))

/-- `Parser.parse_termo`: `termo := fator ((MUL|DIV) fator)*`, wrapped in
a `Termo` node holding the accumulated subtree. -/
def parse_termoGo (pl : State → PRes Node) (p : State) : PRes Node :=
  pbind (parse_fatorGo pl p) fun f p1 =>
  pbind (termoLoopGo pl (p1.tokens.length - p1.pos + 1) f p1) fun acc p2 =>
  plift (.ok (.mk "Termo" [acc], p2))

/-- The `while` loop of `parse_expressao_aritmetica` (operators `PLUS`,
`MINUS`, node labeled with the lexeme). -/
def aritmeticaLoopGo (pl : State → PRes Node) : Nat → Node → State → PRes Node
  | 0, _, _ => none
  | n + 1, acc, p =>
    if (current_token p).type = "PLUS" ∨ (current_token p).type = "MINUS" then
      pbind (parse_termoGo pl (advance p)) fun t p2 =>
      aritmeticaLoopGo pl n (.mk (pyStr (current_token p).value) [acc, t]) p2
    else plift (.ok (acc, p))

/-- `Parser.parse_expressao_aritmetica`:
`expressao_aritmetica := termo ((PLUS|MINUS) termo)*`. -/
def parse_expressao_aritmeticaGo (pl : State → PRes Node) (p : State) : PRes Node :=
  pbind (parse_termoGo pl p) fun t p1 =>
  pbind (aritmeticaLoopGo pl (p1.tokens.length - p1.pos + 1) t p1) fun acc p2 =>
  plift (.ok (.mk "ExpressaoAritmetica" [acc], p2))

/-- The relational operator types accepted by `parse_expressao_relacional`. -/
def relOps : List String := ["GT", "LT", "GE", "LE", "EQ", "NE"]

/-- `Parser.parse_expressao_relacional`:
`expressao_relacional := expressao_aritmetica (relop expressao_aritmetica)?`
— at most one relational operator, node labeled with the lexeme. -/
def parse_expressao_relacionalGo (pl : State → PRes Node) (p : State) : PRes Node :=
  pbind (parse_expressao_aritmeticaGo pl p) fun a p1 =>
  if (current_token p1).type ∈ relOps then
    pbind (parse_expressao_aritmeticaGo pl (advance p1)) fun b p3 =>
    plift (.ok (.mk "ExpressaoRelacional" [.mk (pyStr (current_token p1).value) [a, b]], p3))
  else plift (.ok (.mk "ExpressaoRelacional" [a], p1))

/-- The `while` loop of `parse_expressao_logica` (operators `E`, `OU`,
node labeled with the token TYPE, unlike the other operator loops). -/
def logicaLoopGo (pl : State → PRes Node) : Nat → Node → State → PRes Node
  | 0, _, _ => none
  | n + 1, acc, p =>
    if (current_token p).type = "E" ∨ (current_token p).type = "OU" then
      pbind (parse_expressao_relacionalGo pl (advance p)) fun r p2 =>
      logicaLoopGo pl n (.mk ((current_token p).type) [acc, r]) p2
    else plift (.ok (acc, p))

/-- Recursion of `parse_expressao_logica`: the budget is one unit per
parenthesis-nesting level (each level consumes an `LPAREN`). -/
def parse_expressao_logicaF : Nat → State → PRes Node
  | 0, _ => none
  | n + 1, p =>
    pbind (parse_expressao_relacionalGo (parse_expressao_logicaF n) p) fun r p1 =>
    pbind (logicaLoopGo (parse_expressao_logicaF n) (p1.tokens.length - p1.pos + 1) r p1) fun acc p2 =>
    plift (.ok (.mk "ExpressaoLogica" [acc], p2))

/-- `Parser.parse_expressao_logica`:
`expressao_logica := expressao_relacional ((E|OU) expressao_relacional)*`. -/
def parse_expressao_logica (p : State) : PRes Node :=
  parse_expressao_logicaF (p.tokens.length - p.pos + 1) p

/-- `Parser.parse_fator` with its recursive call tied to the real
`parse_expressao_logica`. -/
def parse_fator (p : State) : PRes Node :=
  parse_fatorGo parse_expressao_logica p

/-- `Parser.parse_termo` with its recursive call tied to the real
`parse_expressao_logica`. -/
def parse_termo (p : State) : PRes Node :=
  parse_termoGo parse_expressao_logica p

/-- `Parser.parse_expressao_aritmetica` with its recursive call tied to
the real `parse_expressao_logica`. -/
def parse_expressao_aritmetica (p : State) : PRes Node :=
  parse_expressao_aritmeticaGo parse_expressao_logica p

/-- `Parser.parse_expressao_relacional` with its recursive call tied to
the real `parse_expressao_logica`. -/
def parse_expressao_relacional (p : State) : PRes Node :=
  parse_expressao_relacionalGo parse_expressao_logica p

/-- `Parser.parse_atribuicao`: `IDENTIFIER '=' expressao_logica`. -/
def parse_atribuicao (p : State) : PRes Node :=
  pbind (plift (eat "IDENTIFIER" p)) fun i p1 =>
  pbind (plift (eat "ASSIGN" p1)) fun a p2 =>
  pbind (parse_expressao_logica p2) fun e p3 =>
  plift (.ok (.mk "Atribuicao" [i, a, e], p3))

/-- `Parser.parse_if`, with the recursive call to `parse_comandos`
abstracted as `pc`:
`condicional := SE expressao_logica ENTAO BLOCO comandos FIMBLOCO`. -/
def parse_ifGo (pc : State → PRes Node) (p : State) : PRes Node :=
  pbind (plift (eat "SE" p)) fun se p1 =>
  pbind (parse_expressao_logica p1) fun cond p2 =>
  pbind (plift (eat "ENTAO" p2)) fun ent p3 =>
  pbind (plift (eat "BLOCO" p3)) fun bl p4 =>
  pbind (pc p4) fun body p5 =>
  pbind (plift (eat "FIMBLOCO" p5)) fun fb p6 =>
  plift (.ok (.mk "Condicional" [se, cond, ent, bl, body, fb], p6))

/-- `Parser.parse_comando`: `LEIA IDENTIFIER`,
`ESCREVA '(' (IDENTIFIER|NUMBER) ')'`, a conditional, or an assignment
recognized by the one-token lookahead for `ASSIGN`; anything else is the
`Comando inválido` fault. -/
def parse_comandoGo (pc : State → PRes Node) (p : State) : PRes Node :=
  if (current_token p).type = "LEIA" then
    pbind (plift (eat "LEIA" p)) fun l p1 =>
    pbind (plift (eat "IDENTIFIER" p1)) fun i p2 =>
    plift (.ok (.mk "Comando" [l, i], p2))
  else if (current_token p).type = "ESCREVA" then
    pbind (plift (eat "ESCREVA" p)) fun es p1 =>
    pbind (plift (eat "LPAREN" p1)) fun lp p2 =>
    (if (current_token p2).type = "IDENTIFIER" ∨ (current_token p2).type = "NUMBER" then
      pbind (plift (eat (current_token p2).type p2)) fun arg p3 =>
      pbind (plift (eat "RPAREN" p3)) fun rp p4 =>
      plift (.ok (.mk "Comando" [es, lp, arg, rp], p4))
    else
      plift (.error ⟨"Esperado identificador ou número dentro de ESCREVA(...)", current_token p2⟩))
  else if (current_token p).type = "SE" then
    pbind (parse_ifGo pc p) fun c p1 =>
    plift (.ok (.mk "Comando" [c], p1))
  else if (current_token p).type = "IDENTIFIER" then
    match peek_next_type p 1 with
    | some "ASSIGN" =>
      pbind (parse_atribuicao p) fun a p1 =>
      plift (.ok (.mk "Comando" [a], p1))
    | nt =>
      plift (.error ⟨"Esperado '=' (ASSIGN) após identificador no início do comando, encontrado "
        ++ pyStr nt, current_token p⟩)
  else
    plift (.error ⟨"Comando inválido", current_token p⟩)

/-- Stop set of the `parse_comandos` loop. -/
def comandoStop (t : String) : Bool :=
  t == "FIMPROG" || t == "FIMBLOCO" || t == "FIMDECLS" || t == "EOF"

/-- The `while` loop of `parse_comandos`: one command per iteration until
a stop token. -/
def comandosLoopGo (pc : State → PRes Node) : Nat → List Node → State → PRes (List Node)
  | 0, _, _ => none
  | n + 1, kids, p =>
    if comandoStop (current_token p).type then plift (.ok (kids, p))
    else
      pbind (parse_comandoGo pc p) fun c p' =>
      comandosLoopGo pc n (kids ++ [c]) p'

/-- Recursion of `parse_comandos`: one budget unit per block-nesting
level (each `SE ... BLOCO` level consumes tokens before recursing). -/
def parse_comandosF : Nat → State → PRes Node
  | 0, _ => none
  | n + 1, p =>
    pbind (comandosLoopGo (parse_comandosF n) (p.tokens.length - p.pos + 1) [] p) fun kids p' =>
    plift (.ok (.mk "Comandos" kids, p'))

/-- `Parser.parse_comandos`: `comandos := comando*`, stopping at
`FIMPROG`, `FIMBLOCO`, `FIMDECLS` or `EOF`. -/
def parse_comandos (p : State) : PRes Node :=
  parse_comandosF (p.tokens.length - p.pos + 1) p

/-- `Parser.parse_comando` with its recursive call tied to the real
`parse_comandos`. -/
def parse_comando (p : State) : PRes Node :=
  parse_comandoGo parse_comandos p

/-- `Parser.parse_if` with its recursive call tied to the real
`parse_comandos`. -/
def parse_if (p : State) : PRes Node :=
  parse_ifGo parse_comandos p

/-- `Parser.parse_decl`: `IDENTIFIER ':' (INT|FLOAT)`. -/
def parse_decl (p : State) : Except SyntaxFault (Node × State) :=
  match eat "IDENTIFIER" p with
  | .error e => .error e
  | .ok (i, p1) =>
    match eat "COLON" p1 with
    | .error e => .error e
    | .ok (c, p2) =>
      if (current_token p2).type = "INT" ∨ (current_token p2).type = "FLOAT" then
        match eat (current_token p2).type p2 with
        | .error e => .error e
        | .ok (ty, p3) => .ok (.mk "Decl" [i, c, ty], p3)
      else
        .error ⟨"Tipo esperado (INT ou FLOAT) após ':' na declaração", current_token p2⟩

/-- The `while` loop of `parse_decls`: a declaration is recognized only by
`IDENTIFIER` immediately followed by `COLON`; anything else before
`FIMDECLS`/`EOF` is a fault. -/
def declsLoopF : Nat → List Node → State → PRes (List Node)
  | 0, _, _ => none
  | n + 1, kids, p =>
    if (current_token p).type = "FIMDECLS" ∨ (current_token p).type = "EOF" then
      plift (.ok (kids, p))
    else if (current_token p).type = "IDENTIFIER" ∧ peek_is_colon p then
      pbind (plift (parse_decl p)) fun d p' =>
      declsLoopF n (kids ++ [d]) p'
    else
      plift (.error ⟨"Esperado declaração de variável no formato 'nome:TIPO' ou 'FIMDECLS' para terminar DECLS", current_token p⟩)

/-- `Parser.parse_decls`. -/
def parse_decls (p : State) : PRes Node :=
  pbind (declsLoopF (p.tokens.length - p.pos + 1) [] p) fun kids p' =>
  plift (.ok (.mk "Decls" kids, p'))

/-- `Parser.parse_programa`:
`programa := INICIO DECLS decls FIMDECLS CODIGO comandos FIMPROG`
(the Graphviz rendering and the success `print` are external I/O and are
not modelled). -/
def parse_programa (p : State) : PRes Node :=
  pbind (plift (eat "INICIO" p)) fun n1 p1 =>
  pbind (plift (eat "DECLS" p1)) fun n2 p2 =>
  pbind (parse_decls p2) fun n3 p3 =>
  pbind (plift (eat "FIMDECLS" p3)) fun n4 p4 =>
  pbind (plift (eat "CODIGO" p4)) fun n5 p5 =>
  pbind (parse_comandos p5) fun n6 p6 =>
  pbind (plift (eat "FIMPROG" p6)) fun n7 p7 =>
  plift (.ok (.mk "Programa" [n1, n2, n3, n4, n5, n6, n7], p7))

/-! Basic facts about the parser cursor. -/

/-- The token sequence is well formed for the parser when its last
element is the EOF marker (which `tokenize` guarantees). -/
def EOFLast (ts : List Token) : Prop :=
  (ts.getLast?).map Token.type = some "EOF"

/-- A good parser state: well formed sequence, cursor in bounds. -/
def Good (p : State) : Prop :=
  EOFLast p.tokens ∧ p.pos < p.tokens.length

theorem EOFLast.ne_nil {ts : List Token} (h : EOFLast ts) : ¬ ts = [] := by
  intro he
  subst he
  simp [EOFLast] at h

theorem advance_tokens (p : State) : (advance p).tokens = p.tokens := by
  unfold advance
  split <;> rfl

theorem advance_pos_le (p : State) : p.pos ≤ (advance p).pos := by
  unfold advance
  split
  · simp
  · exact Nat.le_refl _

theorem advance_pos_lt {p : State} (h : p.pos < p.tokens.length) :
    (advance p).pos < p.tokens.length := by
  unfold advance
  split
  · simp only
    omega
  · exact h

theorem advance_of_lt {p : State} (h : p.pos < p.tokens.length - 1) :
    (advance p).pos = p.pos + 1 := by
  unfold advance
  rw [if_pos h]

theorem Good_advance {p : State} (h : Good p) : Good (Parser.advance p) := by
  refine ⟨?_, ?_⟩
  · rw [advance_tokens]; exact h.1
  · rw [advance_tokens]; exact advance_pos_lt h.2

theorem current_token_of_get? {p : State} {t : Token}
    (h : p.tokens.get? p.pos = some t) : current_token p = t := by
  unfold current_token
  rw [h]
  rfl

theorem current_token_get? {p : State} (h : p.pos < p.tokens.length) :
    p.tokens.get? p.pos = some (current_token p) := by
  cases hg : p.tokens.get? p.pos with
  | none => exact absurd (List.get?_eq_none.mp hg) (by omega)
  | some t => rw [current_token_of_get? hg]

/-- In a good state, a current token that is not the EOF marker sits
strictly before the last position, so `advance` really moves. -/
theorem Good.lt_of_ne_eof {p : State} (h : Good p)
    (hne : ¬ (current_token p).type = "EOF") : p.pos < p.tokens.length - 1 := by
  obtain ⟨hlast, hlt⟩ := h
  rcases Nat.lt_or_ge p.pos (p.tokens.length - 1) with hl | hge
  · exact hl
  · exfalso
    have hpos : p.pos = p.tokens.length - 1 := by omega
    unfold EOFLast at hlast
    rw [List.getLast?_eq_getElem?] at hlast
    cases hget : p.tokens[p.tokens.length - 1]? with
    | none => rw [hget] at hlast; exact absurd hlast (by simp)
    | some tl =>
      rw [hget] at hlast
      simp only [Option.map_some', Option.some.injEq] at hlast
      apply hne
      rw [current_token_of_get? (by rw [hpos, List.get?_eq_getElem?]; exact hget)]
      exact hlast

theorem eat_ok {tokenType : String} {p : State} {nd : Node} {p' : State}
    (h : eat tokenType p = .ok (nd, p')) :
    (current_token p).type = tokenType ∧ p' = advance p := by
  unfold eat at h
  split at h
  · refine ⟨by assumption, ?_⟩
    injection h with h
    rw [Prod.mk.injEq] at h
    exact h.2.symm
  · exact absurd h (by simp)

theorem eat_ok_facts {tokenType : String} {p : State} {nd : Node} {p' : State}
    (h : eat tokenType p = .ok (nd, p')) :
    p'.tokens = p.tokens ∧ p.pos ≤ p'.pos ∧ (Good p → Good p') := by
  obtain ⟨_, h2⟩ := eat_ok h
  subst h2
  exact ⟨advance_tokens p, advance_pos_le p, fun hg => Good_advance hg⟩

/-- In a good state, successfully eating anything but the EOF marker
consumes exactly one token. -/
theorem eat_strict {tokenType : String} {p : State} {nd : Node} {p' : State}
    (hg : Good p) (hne : ¬ tokenType = "EOF")
    (h : eat tokenType p = .ok (nd, p')) : p'.pos = p.pos + 1 := by
  obtain ⟨h1, h2⟩ := eat_ok h
  subst h2
  exact advance_of_lt (hg.lt_of_ne_eof (by rw [h1]; exact hne))

theorem pbind_ok {α β : Type} {x : PRes α} {f : α → State → PRes β}
    {r : β × State} (h : pbind x f = some (.ok r)) :
    ∃ a p1, x = some (.ok (a, p1)) ∧ f a p1 = some (.ok r) := by
  cases hx : x with
  | none => rw [hx] at h; simp [pbind] at h
  | some v =>
    rw [hx] at h
    cases v with
    | error e =>
      exact Except.noConfusion (Option.some.inj h)
    | ok ap =>
      rcases ap with ⟨a, p1⟩
      simp only [pbind] at h
      exact ⟨a, p1, rfl, h⟩

theorem pbind_ne {α β : Type} {x : PRes α} {f : α → State → PRes β}
    (hx : ¬ x = none) (hf : ∀ a p1, x = some (.ok (a, p1)) → ¬ f a p1 = none) :
    ¬ pbind x f = none := by
  intro hnone
  unfold pbind at hnone
  cases hxv : x with
  | none => exact hx hxv
  | some v =>
    rw [hxv] at hnone
    cases v with
    | error e => simp at hnone
    | ok ap =>
      rcases ap with ⟨a, p1⟩
      simp only at hnone
      exact hf a p1 hxv hnone

theorem plift_ok {α : Type} {x : Except SyntaxFault (α × State)} {r : α × State}
    (h : plift x = some (.ok r)) : x = .ok r := by
  unfold plift at h
  injection h

theorem plift_ne {α : Type} (x : Except SyntaxFault (α × State)) :
    ¬ plift x = none := by
  unfold plift
  simp

/-- A parsing procedure preserves the token list, never moves the cursor
backwards, and keeps good states good. -/
def Preserves {α : Type} (f : State → PRes α) : Prop :=
  ∀ (p : State) (a : α) (p' : State), f p = some (.ok (a, p')) →
    p'.tokens = p.tokens ∧ p.pos ≤ p'.pos ∧ (Good p → Good p')

theorem plift_ok_inv {α : Type} {a' : α} {q : State} {b : α} {p' : State}
    (h : plift (.ok (a', q)) = some (.ok (b, p'))) : a' = b ∧ q = p' := by
  have h2 := plift_ok h
  injection h2 with h2
  rw [Prod.mk.injEq] at h2
  exact h2

theorem plift_error_ne {α : Type} {e : SyntaxFault} {r : α × State}
    (h : plift (α := α) (.error e) = some (.ok r)) : False :=
  Except.noConfusion (plift_ok h)

theorem triple_comp {p p1 p2 : State}
    (a : p1.tokens = p.tokens ∧ p.pos ≤ p1.pos ∧ (Good p → Good p1))
    (b : p2.tokens = p1.tokens ∧ p1.pos ≤ p2.pos ∧ (Good p1 → Good p2)) :
    p2.tokens = p.tokens ∧ p.pos ≤ p2.pos ∧ (Good p → Good p2) :=
  ⟨by rw [b.1, a.1], Nat.le_trans a.2.1 b.2.1, fun hg => b.2.2 (a.2.2 hg)⟩

theorem triple_refl (p : State) :
    p.tokens = p.tokens ∧ p.pos ≤ p.pos ∧ (Good p → Good p) :=
  ⟨rfl, Nat.le_refl _, fun hg => hg⟩

theorem triple_advance (p : State) :
    (advance p).tokens = p.tokens ∧ p.pos ≤ (advance p).pos ∧
      (Good p → Good (advance p)) :=
  ⟨advance_tokens p, advance_pos_le p, fun hg => Good_advance hg⟩

/-! Every parsing procedure satisfies `Preserves`. -/

theorem preserves_fatorGo {pl : State → PRes Node} (hpl : Preserves pl) :
    Preserves (parse_fatorGo pl) := by
  intro p a p' h
  unfold parse_fatorGo at h
  split at h
  · obtain ⟨_, hq⟩ := plift_ok_inv h
    subst hq
    exact triple_advance p
  · split at h
    · obtain ⟨lp, p1, h1, h⟩ := pbind_ok h
      obtain ⟨e, p2, h2, h⟩ := pbind_ok h
      obtain ⟨rp, p3, h3, h⟩ := pbind_ok h
      obtain ⟨_, hq⟩ := plift_ok_inv h
      subst hq
      exact triple_comp (eat_ok_facts (plift_ok h1))
        (triple_comp (hpl p1 e p2 h2) (eat_ok_facts (plift_ok h3)))
    · exact absurd (plift_ok h) (by simp)

theorem termoLoopGo_preserves {pl : State → PRes Node} (hpl : Preserves pl) :
    ∀ (n : Nat) (acc : Node) (p : State) (a : Node) (p' : State),
      termoLoopGo pl n acc p = some (.ok (a, p')) →
      p'.tokens = p.tokens ∧ p.pos ≤ p'.pos ∧ (Good p → Good p') := by
  intro n
  induction n with
  | zero => intro acc p a p' h; exact absurd h (by simp [termoLoopGo])
  | succ k ih =>
    intro acc p a p' h
    simp only [termoLoopGo] at h
    split at h
    · obtain ⟨f, p2, h2, h⟩ := pbind_ok h
      exact triple_comp (triple_advance p)
        (triple_comp (preserves_fatorGo hpl (advance p) f p2 h2) (ih _ p2 a p' h))
    · obtain ⟨_, hq⟩ := plift_ok_inv h
      subst hq
      exact triple_refl p

theorem preserves_termoGo {pl : State → PRes Node} (hpl : Preserves pl) :
    Preserves (parse_termoGo pl) := by
  intro p a p' h
  unfold parse_termoGo at h
  obtain ⟨f, p1, h1, h⟩ := pbind_ok h
  obtain ⟨acc, p2, h2, h⟩ := pbind_ok h
  obtain ⟨_, hq⟩ := plift_ok_inv h
  subst hq
  exact triple_comp (preserves_fatorGo hpl p f p1 h1)
    (termoLoopGo_preserves hpl _ f p1 acc p2 h2)

theorem aritmeticaLoopGo_preserves {pl : State → PRes Node} (hpl : Preserves pl) :
    ∀ (n : Nat) (acc : Node) (p : State) (a : Node) (p' : State),
      aritmeticaLoopGo pl n acc p = some (.ok (a, p')) →
      p'.tokens = p.tokens ∧ p.pos ≤ p'.pos ∧ (Good p → Good p') := by
  intro n
  induction n with
  | zero => intro acc p a p' h; exact absurd h (by simp [aritmeticaLoopGo])
  | succ k ih =>
    intro acc p a p' h
    simp only [aritmeticaLoopGo] at h
    split at h
    · obtain ⟨t, p2, h2, h⟩ := pbind_ok h
      exact triple_comp (triple_advance p)
        (triple_comp (preserves_termoGo hpl (advance p) t p2 h2) (ih _ p2 a p' h))
    · obtain ⟨_, hq⟩ := plift_ok_inv h
      subst hq
      exact triple_refl p

theorem preserves_aritmeticaGo {pl : State → PRes Node} (hpl : Preserves pl) :
    Preserves (parse_expressao_aritmeticaGo pl) := by
  intro p a p' h
  unfold parse_expressao_aritmeticaGo at h
  obtain ⟨t, p1, h1, h⟩ := pbind_ok h
  obtain ⟨acc, p2, h2, h⟩ := pbind_ok h
  obtain ⟨_, hq⟩ := plift_ok_inv h
  subst hq
  exact triple_comp (preserves_termoGo hpl p t p1 h1)
    (aritmeticaLoopGo_preserves hpl _ t p1 acc p2 h2)

theorem preserves_relacionalGo {pl : State → PRes Node} (hpl : Preserves pl) :
    Preserves (parse_expressao_relacionalGo pl) := by
  intro p a p' h
  unfold parse_expressao_relacionalGo at h
  obtain ⟨x, p1, h1, h⟩ := pbind_ok h
  split at h
  · obtain ⟨y, p3, h3, h⟩ := pbind_ok h
    obtain ⟨_, hq⟩ := plift_ok_inv h
    subst hq
    exact triple_comp (preserves_aritmeticaGo hpl p x p1 h1)
      (triple_comp (triple_advance p1) (preserves_aritmeticaGo hpl (advance p1) y p3 h3))
  · obtain ⟨_, hq⟩ := plift_ok_inv h
    subst hq
    exact preserves_aritmeticaGo hpl p x p1 h1

theorem logicaLoopGo_preserves {pl : State → PRes Node} (hpl : Preserves pl) :
    ∀ (n : Nat) (acc : Node) (p : State) (a : Node) (p' : State),
      logicaLoopGo pl n acc p = some (.ok (a, p')) →
      p'.tokens = p.tokens ∧ p.pos ≤ p'.pos ∧ (Good p → Good p') := by
  intro n
  induction n with
  | zero => intro acc p a p' h; exact absurd h (by simp [logicaLoopGo])
  | succ k ih =>
    intro acc p a p' h
    simp only [logicaLoopGo] at h
    split at h
    · obtain ⟨r, p2, h2, h⟩ := pbind_ok h
      exact triple_comp (triple_advance p)
        (triple_comp (preserves_relacionalGo hpl (advance p) r p2 h2) (ih _ p2 a p' h))
    · obtain ⟨_, hq⟩ := plift_ok_inv h
      subst hq
      exact triple_refl p

theorem preserves_logicaF : ∀ (n : Nat), Preserves (parse_expressao_logicaF n) := by
  intro n
  induction n with
  | zero => intro p a p' h; exact absurd h (by simp [parse_expressao_logicaF])
  | succ k ih =>
    intro p a p' h
    simp only [parse_expressao_logicaF] at h
    obtain ⟨r, p1, h1, h⟩ := pbind_ok h
    obtain ⟨acc, p2, h2, h⟩ := pbind_ok h
    obtain ⟨_, hq⟩ := plift_ok_inv h
    subst hq
    exact triple_comp (preserves_relacionalGo ih p r p1 h1)
      (logicaLoopGo_preserves ih _ r p1 acc p2 h2)

theorem preserves_logica : Preserves parse_expressao_logica := by
  intro p a p' h
  exact preserves_logicaF _ p a p' h

theorem preserves_atribuicao : Preserves parse_atribuicao := by
  intro p a p' h
  unfold parse_atribuicao at h
  obtain ⟨i, p1, h1, h⟩ := pbind_ok h
  obtain ⟨x, p2, h2, h⟩ := pbind_ok h
  obtain ⟨e, p3, h3, h⟩ := pbind_ok h
  obtain ⟨_, hq⟩ := plift_ok_inv h
  subst hq
  exact triple_comp (eat_ok_facts (plift_ok h1))
    (triple_comp (eat_ok_facts (plift_ok h2)) (preserves_logica p2 e p3 h3))

theorem preserves_ifGo {pc : State → PRes Node} (hpc : Preserves pc) :
    Preserves (parse_ifGo pc) := by
  intro p a p' h
  unfold parse_ifGo at h
  obtain ⟨se, p1, h1, h⟩ := pbind_ok h
  obtain ⟨cond, p2, h2, h⟩ := pbind_ok h
  obtain ⟨ent, p3, h3, h⟩ := pbind_ok h
  obtain ⟨bl, p4, h4, h⟩ := pbind_ok h
  obtain ⟨body, p5, h5, h⟩ := pbind_ok h
  obtain ⟨fb, p6, h6, h⟩ := pbind_ok h
  obtain ⟨_, hq⟩ := plift_ok_inv h
  subst hq
  exact triple_comp (eat_ok_facts (plift_ok h1))
    (triple_comp (preserves_logica p1 cond p2 h2)
      (triple_comp (eat_ok_facts (plift_ok h3))
        (triple_comp (eat_ok_facts (plift_ok h4))
          (triple_comp (hpc p4 body p5 h5) (eat_ok_facts (plift_ok h6))))))

theorem preserves_comandoGo {pc : State → PRes Node} (hpc : Preserves pc) :
    Preserves (parse_comandoGo pc) := by
  intro p a p' h
  unfold parse_comandoGo at h
  split at h
  · obtain ⟨l, p1, h1, h⟩ := pbind_ok h
    obtain ⟨i, p2, h2, h⟩ := pbind_ok h
    obtain ⟨_, hq⟩ := plift_ok_inv h
    subst hq
    exact triple_comp (eat_ok_facts (plift_ok h1)) (eat_ok_facts (plift_ok h2))
  · split at h
    · obtain ⟨es, p1, h1, h⟩ := pbind_ok h
      obtain ⟨lp, p2, h2, h⟩ := pbind_ok h
      split at h
      · obtain ⟨arg, p3, h3, h⟩ := pbind_ok h
        obtain ⟨rp, p4, h4, h⟩ := pbind_ok h
        obtain ⟨_, hq⟩ := plift_ok_inv h
        subst hq
        exact triple_comp (eat_ok_facts (plift_ok h1))
          (triple_comp (eat_ok_facts (plift_ok h2))
            (triple_comp (eat_ok_facts (plift_ok h3)) (eat_ok_facts (plift_ok h4))))
      · exact absurd (plift_ok h) (by simp)
    · split at h
      · obtain ⟨c, p1, h1, h⟩ := pbind_ok h
        obtain ⟨_, hq⟩ := plift_ok_inv h
        subst hq
        exact preserves_ifGo hpc p c p1 h1
      · split at h
        · split at h
          · obtain ⟨x, p1, h1, h⟩ := pbind_ok h
            obtain ⟨_, hq⟩ := plift_ok_inv h
            subst hq
            exact preserves_atribuicao p x p1 h1
          · exact absurd (plift_ok h) (by simp)
        · exact absurd (plift_ok h) (by simp)

theorem comandosLoopGo_preserves {pc : State → PRes Node} (hpc : Preserves pc) :
    ∀ (n : Nat) (kids : List Node) (p : State) (a : List Node) (p' : State),
      comandosLoopGo pc n kids p = some (.ok (a, p')) →
      p'.tokens = p.tokens ∧ p.pos ≤ p'.pos ∧ (Good p → Good p') := by
  intro n
  induction n with
  | zero => intro kids p a p' h; exact absurd h (by simp [comandosLoopGo])
  | succ k ih =>
    intro kids p a p' h
    simp only [comandosLoopGo] at h
    split at h
    · obtain ⟨_, hq⟩ := plift_ok_inv h
      subst hq
      exact triple_refl p
    · obtain ⟨c, p1, h1, h⟩ := pbind_ok h
      exact triple_comp (preserves_comandoGo hpc p c p1 h1) (ih _ p1 a p' h)

theorem preserves_comandosF : ∀ (n : Nat), Preserves (parse_comandosF n) := by
  intro n
  induction n with
  | zero => intro p a p' h; exact absurd h (by simp [parse_comandosF])
  | succ k ih =>
    intro p a p' h
    simp only [parse_comandosF] at h
    obtain ⟨kids, p1, h1, h⟩ := pbind_ok h
    obtain ⟨_, hq⟩ := plift_ok_inv h
    subst hq
    exact comandosLoopGo_preserves ih _ [] p kids p1 h1

theorem preserves_comandos : Preserves parse_comandos := by
  intro p a p' h
  exact preserves_comandosF _ p a p' h

theorem parse_decl_facts {p : State} {nd : Node} {p' : State}
    (h : parse_decl p = .ok (nd, p')) :
    p'.tokens = p.tokens ∧ p.pos ≤ p'.pos ∧ (Good p → Good p') := by
  unfold parse_decl at h
  cases h1 : eat "IDENTIFIER" p with
  | error e => rw [h1] at h; exact absurd h (by simp)
  | ok r1 =>
    rcases r1 with ⟨i, p1⟩
    rw [h1] at h
    simp only at h
    cases h2 : eat "COLON" p1 with
    | error e => rw [h2] at h; exact absurd h (by simp)
    | ok r2 =>
      rcases r2 with ⟨c, p2⟩
      rw [h2] at h
      simp only at h
      split at h
      · cases h3 : eat (current_token p2).type p2 with
        | error e => rw [h3] at h; exact absurd h (by simp)
        | ok r3 =>
          rcases r3 with ⟨ty, p3⟩
          rw [h3] at h
          simp only at h
          injection h with h
          rw [Prod.mk.injEq] at h
          obtain ⟨_, hq⟩ := h
          subst hq
          exact triple_comp (eat_ok_facts h1)
            (triple_comp (eat_ok_facts h2) (eat_ok_facts h3))
      · exact absurd h (by simp)

theorem declsLoopF_preserves :
    ∀ (n : Nat) (kids : List Node) (p : State) (a : List Node) (p' : State),
      declsLoopF n kids p = some (.ok (a, p')) →
      p'.tokens = p.tokens ∧ p.pos ≤ p'.pos ∧ (Good p → Good p') := by
  intro n
  induction n with
  | zero => intro kids p a p' h; exact absurd h (by simp [declsLoopF])
  | succ k ih =>
    intro kids p a p' h
    simp only [declsLoopF] at h
    split at h
    · obtain ⟨_, hq⟩ := plift_ok_inv h
      subst hq
      exact triple_refl p
    · split at h
      · obtain ⟨d, p1, h1, h⟩ := pbind_ok h
        exact triple_comp (parse_decl_facts (plift_ok h1)) (ih _ p1 a p' h)
      · exact absurd (plift_ok h) (by simp)

theorem preserves_decls : Preserves parse_decls := by
  intro p a p' h
  unfold parse_decls at h
  obtain ⟨kids, p1, h1, h⟩ := pbind_ok h
  obtain ⟨_, hq⟩ := plift_ok_inv h
  subst hq
  exact declsLoopF_preserves _ [] p kids p1 h1

/-! Strict progress: every successfully parsed command or declaration
consumes at least one token (in a good state).  This is what makes the
`comandos` and `decls` loops terminate. -/

theorem atribuicao_strict {p : State} {a : Node} {p' : State} (hg : Good p)
    (h : parse_atribuicao p = some (.ok (a, p'))) : p.pos < p'.pos := by
  unfold parse_atribuicao at h
  obtain ⟨i, p1, h1, h⟩ := pbind_ok h
  obtain ⟨x, p2, h2, h⟩ := pbind_ok h
  obtain ⟨e, p3, h3, h⟩ := pbind_ok h
  obtain ⟨_, hq⟩ := plift_ok_inv h
  subst hq
  have hs := eat_strict hg (by decide) (plift_ok h1)
  have m2 := eat_ok_facts (plift_ok h2)
  have m3 := preserves_logica p2 e p3 h3
  omega

theorem ifGo_strict {pc : State → PRes Node} (hpc : Preserves pc)
    {p : State} {a : Node} {p' : State} (hg : Good p)
    (h : parse_ifGo pc p = some (.ok (a, p'))) : p.pos < p'.pos := by
  unfold parse_ifGo at h
  obtain ⟨se, p1, h1, h⟩ := pbind_ok h
  obtain ⟨cond, p2, h2, h⟩ := pbind_ok h
  obtain ⟨ent, p3, h3, h⟩ := pbind_ok h
  obtain ⟨bl, p4, h4, h⟩ := pbind_ok h
  obtain ⟨body, p5, h5, h⟩ := pbind_ok h
  obtain ⟨fb, p6, h6, h⟩ := pbind_ok h
  obtain ⟨_, hq⟩ := plift_ok_inv h
  subst hq
  have hs := eat_strict hg (by decide) (plift_ok h1)
  have m2 := preserves_logica p1 cond p2 h2
  have m3 := eat_ok_facts (plift_ok h3)
  have m4 := eat_ok_facts (plift_ok h4)
  have m5 := hpc p4 body p5 h5
  have m6 := eat_ok_facts (plift_ok h6)
  omega

theorem comandoGo_strict {pc : State → PRes Node} (hpc : Preserves pc)
    {p : State} {a : Node} {p' : State} (hg : Good p)
    (h : parse_comandoGo pc p = some (.ok (a, p'))) : p.pos < p'.pos := by
  unfold parse_comandoGo at h
  split at h
  · obtain ⟨l, p1, h1, h⟩ := pbind_ok h
    obtain ⟨i, p2, h2, h⟩ := pbind_ok h
    obtain ⟨_, hq⟩ := plift_ok_inv h
    subst hq
    have hs := eat_strict hg (by decide) (plift_ok h1)
    have m2 := eat_ok_facts (plift_ok h2)
    omega
  · split at h
    · obtain ⟨es, p1, h1, h⟩ := pbind_ok h
      obtain ⟨lp, p2, h2, h⟩ := pbind_ok h
      have hs := eat_strict hg (by decide) (plift_ok h1)
      have m2 := eat_ok_facts (plift_ok h2)
      split at h
      · obtain ⟨arg, p3, h3, h⟩ := pbind_ok h
        obtain ⟨rp, p4, h4, h⟩ := pbind_ok h
        obtain ⟨_, hq⟩ := plift_ok_inv h
        subst hq
        have m3 := eat_ok_facts (plift_ok h3)
        have m4 := eat_ok_facts (plift_ok h4)
        omega
      · exact absurd (plift_ok h) (by simp)
    · split at h
      · obtain ⟨c, p1, h1, h⟩ := pbind_ok h
        obtain ⟨_, hq⟩ := plift_ok_inv h
        subst hq
        exact ifGo_strict hpc hg h1
      · split at h
        · split at h
          · obtain ⟨x, p1, h1, h⟩ := pbind_ok h
            obtain ⟨_, hq⟩ := plift_ok_inv h
            subst hq
            exact atribuicao_strict hg h1
          · exact absurd (plift_ok h) (by simp)
        · exact absurd (plift_ok h) (by simp)

theorem decl_strict {p : State} {nd : Node} {p' : State} (hg : Good p)
    (h : parse_decl p = .ok (nd, p')) : p.pos < p'.pos := by
  unfold parse_decl at h
  cases h1 : eat "IDENTIFIER" p with
  | error e => rw [h1] at h; exact absurd h (by simp)
  | ok r1 =>
    rcases r1 with ⟨i, p1⟩
    rw [h1] at h
    simp only at h
    cases h2 : eat "COLON" p1 with
    | error e => rw [h2] at h; exact absurd h (by simp)
    | ok r2 =>
      rcases r2 with ⟨c, p2⟩
      rw [h2] at h
      simp only at h
      split at h
      · cases h3 : eat (current_token p2).type p2 with
        | error e => rw [h3] at h; exact absurd h (by simp)
        | ok r3 =>
          rcases r3 with ⟨ty, p3⟩
          rw [h3] at h
          simp only at h
          injection h with h
          rw [Prod.mk.injEq] at h
          obtain ⟨_, hq⟩ := h
          subst hq
          have hs := eat_strict hg (by decide) h1
          have m2 := eat_ok_facts h2
          have m3 := eat_ok_facts h3
          omega
      · exact absurd h (by simp)

/-! Sufficiency of the iteration budgets: on an EOF-terminated sequence
no parsing procedure ever runs out of budget. -/

/-- Tokens remaining at or after the cursor. -/
def R (p : State) : Nat := p.tokens.length - p.pos

theorem fatorGo_suff {pl : State → PRes Node} {N : Nat}
    (hplP : Preserves pl)
    (hpl : ∀ q, Good q → R q < N → ¬ pl q = none) :
    ∀ p, Good p → R p ≤ N → ¬ parse_fatorGo pl p = none := by
  intro p hg hR
  unfold R at hR
  have hlt := hg.2
  unfold parse_fatorGo
  split
  · exact plift_ne _
  · split
    case isTrue hlp =>
      apply pbind_ne (plift_ne _)
      intro lp p1 h1
      have he := plift_ok h1
      have hstep := eat_strict hg (by decide) he
      have hfacts := eat_ok_facts he
      apply pbind_ne
      · exact hpl p1 (hfacts.2.2 hg) (by unfold R; rw [hfacts.1, hstep]; omega)
      · intro e p2 h2
        apply pbind_ne (plift_ne _)
        intro rp p3 h3
        exact plift_ne _
    case isFalse hlp => exact plift_ne _

theorem termoLoopGo_suff {pl : State → PRes Node} {N : Nat}
    (hplP : Preserves pl)
    (hpl : ∀ q, Good q → R q < N → ¬ pl q = none) :
    ∀ (n : Nat) (acc : Node) (p : State), Good p → R p ≤ N → R p + 1 ≤ n →
      ¬ termoLoopGo pl n acc p = none := by
  intro n
  induction n with
  | zero => intro acc p _ _ hfuel; omega
  | succ k ih =>
    intro acc p hg hR hfuel
    unfold R at hR hfuel
    have hlt := hg.2
    simp only [termoLoopGo]
    by_cases hop : (current_token p).type = "MUL" ∨ (current_token p).type = "DIV"
    · rw [if_pos hop]
      have hne : ¬ (current_token p).type = "EOF" := by
        rcases hop with hx | hx <;> rw [hx] <;> decide
      have hadv : (advance p).pos = p.pos + 1 := advance_of_lt (hg.lt_of_ne_eof hne)
      have htk := advance_tokens p
      apply pbind_ne
      · exact fatorGo_suff hplP hpl (advance p) (Good_advance hg)
          (by unfold R; rw [htk, hadv]; omega)
      · intro f p2 h2
        have m2 := preserves_fatorGo hplP (advance p) f p2 h2
        apply ih _ p2 (m2.2.2 (Good_advance hg))
        · unfold R
          rw [m2.1, htk]
          have := m2.2.1
          rw [hadv] at this
          omega
        · unfold R
          rw [m2.1, htk]
          have := m2.2.1
          rw [hadv] at this
          omega
    · rw [if_neg hop]
      exact plift_ne _

theorem termoGo_suff {pl : State → PRes Node} {N : Nat}
    (hplP : Preserves pl)
    (hpl : ∀ q, Good q → R q < N → ¬ pl q = none) :
    ∀ p, Good p → R p ≤ N → ¬ parse_termoGo pl p = none := by
  intro p hg hR
  unfold parse_termoGo
  apply pbind_ne (fatorGo_suff hplP hpl p hg hR)
  intro f p1 h1
  have m1 := preserves_fatorGo hplP p f p1 h1
  apply pbind_ne
  · apply termoLoopGo_suff hplP hpl _ f p1 (m1.2.2 hg)
    · unfold R
      rw [m1.1]
      have := m1.2.1
      unfold R at hR
      omega
    · exact Nat.le_refl _
  · intro acc p2 h2
    exact plift_ne _

theorem aritmeticaLoopGo_suff {pl : State → PRes Node} {N : Nat}
    (hplP : Preserves pl)
    (hpl : ∀ q, Good q → R q < N → ¬ pl q = none) :
    ∀ (n : Nat) (acc : Node) (p : State), Good p → R p ≤ N → R p + 1 ≤ n →
      ¬ aritmeticaLoopGo pl n acc p = none := by
  intro n
  induction n with
  | zero => intro acc p _ _ hfuel; omega
  | succ k ih =>
    intro acc p hg hR hfuel
    unfold R at hR hfuel
    have hlt := hg.2
    simp only [aritmeticaLoopGo]
    by_cases hop : (current_token p).type = "PLUS" ∨ (current_token p).type = "MINUS"
    · rw [if_pos hop]
      have hne : ¬ (current_token p).type = "EOF" := by
        rcases hop with hx | hx <;> rw [hx] <;> decide
      have hadv : (advance p).pos = p.pos + 1 := advance_of_lt (hg.lt_of_ne_eof hne)
      have htk := advance_tokens p
      apply pbind_ne
      · exact termoGo_suff hplP hpl (advance p) (Good_advance hg)
          (by unfold R; rw [htk, hadv]; omega)
      · intro t p2 h2
        have m2 := preserves_termoGo hplP (advance p) t p2 h2
        apply ih _ p2 (m2.2.2 (Good_advance hg))
        · unfold R
          rw [m2.1, htk]
          have := m2.2.1
          rw [hadv] at this
          omega
        · unfold R
          rw [m2.1, htk]
          have := m2.2.1
          rw [hadv] at this
          omega
    · rw [if_neg hop]
      exact plift_ne _

theorem aritmeticaGo_suff {pl : State → PRes Node} {N : Nat}
    (hplP : Preserves pl)
    (hpl : ∀ q, Good q → R q < N → ¬ pl q = none) :
    ∀ p, Good p → R p ≤ N → ¬ parse_expressao_aritmeticaGo pl p = none := by
  intro p hg hR
  unfold parse_expressao_aritmeticaGo
  apply pbind_ne (termoGo_suff hplP hpl p hg hR)
  intro t p1 h1
  have m1 := preserves_termoGo hplP p t p1 h1
  apply pbind_ne
  · apply aritmeticaLoopGo_suff hplP hpl _ t p1 (m1.2.2 hg)
    · unfold R
      rw [m1.1]
      have := m1.2.1
      unfold R at hR
      omega
    · exact Nat.le_refl _
  · intro acc p2 h2
    exact plift_ne _

theorem relacionalGo_suff {pl : State → PRes Node} {N : Nat}
    (hplP : Preserves pl)
    (hpl : ∀ q, Good q → R q < N → ¬ pl q = none) :
    ∀ p, Good p → R p ≤ N → ¬ parse_expressao_relacionalGo pl p = none := by
  intro p hg hR
  unfold parse_expressao_relacionalGo
  apply pbind_ne (aritmeticaGo_suff hplP hpl p hg hR)
  intro x p1 h1
  have m1 := preserves_aritmeticaGo hplP p x p1 h1
  have hg1 := m1.2.2 hg
  by_cases hrel : (current_token p1).type ∈ relOps
  · rw [if_pos hrel]
    have hne : ¬ (current_token p1).type = "EOF" := by
      intro he
      rw [he] at hrel
      simp [relOps] at hrel
    have hadv : (advance p1).pos = p1.pos + 1 := advance_of_lt (hg1.lt_of_ne_eof hne)
    apply pbind_ne
    · apply aritmeticaGo_suff hplP hpl (advance p1) (Good_advance hg1)
      unfold R
      rw [advance_tokens, hadv, m1.1]
      have := m1.2.1
      have hlt1 := hg1.2
      rw [m1.1] at hlt1
      unfold R at hR
      omega
    · intro b p3 h3
      exact plift_ne _
  · rw [if_neg hrel]
    exact plift_ne _

theorem logicaLoopGo_suff {pl : State → PRes Node} {N : Nat}
    (hplP : Preserves pl)
    (hpl : ∀ q, Good q → R q < N → ¬ pl q = none) :
    ∀ (n : Nat) (acc : Node) (p : State), Good p → R p ≤ N → R p + 1 ≤ n →
      ¬ logicaLoopGo pl n acc p = none := by
  intro n
  induction n with
  | zero => intro acc p _ _ hfuel; omega
  | succ k ih =>
    intro acc p hg hR hfuel
    unfold R at hR hfuel
    have hlt := hg.2
    simp only [logicaLoopGo]
    by_cases hop : (current_token p).type = "E" ∨ (current_token p).type = "OU"
    · rw [if_pos hop]
      have hne : ¬ (current_token p).type = "EOF" := by
        rcases hop with hx | hx <;> rw [hx] <;> decide
      have hadv : (advance p).pos = p.pos + 1 := advance_of_lt (hg.lt_of_ne_eof hne)
      have htk := advance_tokens p
      apply pbind_ne
      · exact relacionalGo_suff hplP hpl (advance p) (Good_advance hg)
          (by unfold R; rw [htk, hadv]; omega)
      · intro r p2 h2
        have m2 := preserves_relacionalGo hplP (advance p) r p2 h2
        apply ih _ p2 (m2.2.2 (Good_advance hg))
        · unfold R
          rw [m2.1, htk]
          have := m2.2.1
          rw [hadv] at this
          omega
        · unfold R
          rw [m2.1, htk]
          have := m2.2.1
          rw [hadv] at this
          omega
    · rw [if_neg hop]
      exact plift_ne _

theorem logicaF_suff : ∀ (n : Nat) (p : State), Good p → R p < n →
    ¬ parse_expressao_logicaF n p = none := by
  intro n
  induction n with
  | zero => intro p _ hR; omega
  | succ k ih =>
    intro p hg hR
    simp only [parse_expressao_logicaF]
    apply pbind_ne (relacionalGo_suff (preserves_logicaF k) ih p hg (by omega))
    intro r p1 h1
    have m1 := preserves_relacionalGo (preserves_logicaF k) p r p1 h1
    apply pbind_ne
    · apply logicaLoopGo_suff (preserves_logicaF k) ih _ r p1 (m1.2.2 hg)
      · unfold R
        rw [m1.1]
        have := m1.2.1
        unfold R at hR
        omega
      · exact Nat.le_refl _
    · intro acc p2 h2
      exact plift_ne _

theorem logica_suff : ∀ p, Good p → ¬ parse_expressao_logica p = none := by
  intro p hg
  unfold parse_expressao_logica
  apply logicaF_suff
  · exact hg
  · unfold R
    omega

theorem atribuicao_suff : ∀ p, Good p → ¬ parse_atribuicao p = none := by
  intro p hg
  unfold parse_atribuicao
  apply pbind_ne (plift_ne _)
  intro i p1 h1
  have m1 := eat_ok_facts (plift_ok h1)
  apply pbind_ne (plift_ne _)
  intro x p2 h2
  have m2 := eat_ok_facts (plift_ok h2)
  apply pbind_ne (logica_suff p2 (m2.2.2 (m1.2.2 hg)))
  intro e p3 h3
  exact plift_ne _

theorem ifGo_suff {pc : State → PRes Node} {N : Nat}
    (hpcP : Preserves pc)
    (hpc : ∀ q, Good q → R q < N → ¬ pc q = none) :
    ∀ p, Good p → R p ≤ N → ¬ parse_ifGo pc p = none := by
  intro p hg hR
  have hlt := hg.2
  unfold parse_ifGo
  apply pbind_ne (plift_ne _)
  intro se p1 h1
  have hstep := eat_strict hg (by decide) (plift_ok h1)
  have m1 := eat_ok_facts (plift_ok h1)
  apply pbind_ne (logica_suff p1 (m1.2.2 hg))
  intro cond p2 h2
  have m2 := preserves_logica p1 cond p2 h2
  apply pbind_ne (plift_ne _)
  intro ent p3 h3
  have m3 := eat_ok_facts (plift_ok h3)
  apply pbind_ne (plift_ne _)
  intro bl p4 h4
  have m4 := eat_ok_facts (plift_ok h4)
  apply pbind_ne
  · apply hpc p4 (m4.2.2 (m3.2.2 (m2.2.2 (m1.2.2 hg))))
    unfold R
    rw [m4.1, m3.1, m2.1, m1.1]
    unfold R at hR
    omega
  · intro body p5 h5
    apply pbind_ne (plift_ne _)
    intro fb p6 h6
    exact plift_ne _

theorem comandoGo_suff {pc : State → PRes Node} {N : Nat}
    (hpcP : Preserves pc)
    (hpc : ∀ q, Good q → R q < N → ¬ pc q = none) :
    ∀ p, Good p → R p ≤ N → ¬ parse_comandoGo pc p = none := by
  intro p hg hR
  unfold parse_comandoGo
  split
  · apply pbind_ne (plift_ne _)
    intro l p1 h1
    apply pbind_ne (plift_ne _)
    intro i p2 h2
    exact plift_ne _
  · split
    · apply pbind_ne (plift_ne _)
      intro es p1 h1
      apply pbind_ne (plift_ne _)
      intro lp p2 h2
      split
      · apply pbind_ne (plift_ne _)
        intro arg p3 h3
        apply pbind_ne (plift_ne _)
        intro rp p4 h4
        exact plift_ne _
      · exact plift_ne _
    · split
      · apply pbind_ne (ifGo_suff hpcP hpc p hg hR)
        intro c p1 h1
        exact plift_ne _
      · split
        · split
          · apply pbind_ne (atribuicao_suff p hg)
            intro x p1 h1
            exact plift_ne _
          · exact plift_ne _
        · exact plift_ne _

theorem comandosLoopGo_suff {pc : State → PRes Node} {N : Nat}
    (hpcP : Preserves pc)
    (hpc : ∀ q, Good q → R q < N → ¬ pc q = none) :
    ∀ (n : Nat) (kids : List Node) (p : State), Good p → R p ≤ N → R p + 1 ≤ n →
      ¬ comandosLoopGo pc n kids p = none := by
  intro n
  induction n with
  | zero => intro kids p _ _ hfuel; omega
  | succ k ih =>
    intro kids p hg hR hfuel
    have hlt := hg.2
    simp only [comandosLoopGo]
    split
    · exact plift_ne _
    · apply pbind_ne (comandoGo_suff hpcP hpc p hg hR)
      intro c p1 h1
      have m1 := preserves_comandoGo hpcP p c p1 h1
      have hstrict := comandoGo_strict hpcP hg h1
      apply ih _ p1 (m1.2.2 hg)
      · unfold R
        rw [m1.1]
        unfold R at hR
        omega
      · unfold R
        rw [m1.1]
        unfold R at hfuel
        omega

theorem comandosF_suff : ∀ (n : Nat) (p : State), Good p → R p < n →
    ¬ parse_comandosF n p = none := by
  intro n
  induction n with
  | zero => intro p _ hR; omega
  | succ k ih =>
    intro p hg hR
    simp only [parse_comandosF]
    apply pbind_ne
    · apply comandosLoopGo_suff (preserves_comandosF k) ih _ [] p hg (by omega)
      exact Nat.le_refl _
    · intro kids p1 h1
      exact plift_ne _

theorem comandos_suff : ∀ p, Good p → ¬ parse_comandos p = none := by
  intro p hg
  unfold parse_comandos
  apply comandosF_suff
  · exact hg
  · unfold R
    omega

theorem declsLoopF_suff : ∀ (n : Nat) (kids : List Node) (p : State),
    Good p → R p + 1 ≤ n → ¬ declsLoopF n kids p = none := by
  intro n
  induction n with
  | zero => intro kids p _ hfuel; omega
  | succ k ih =>
    intro kids p hg hfuel
    have hlt := hg.2
    simp only [declsLoopF]
    split
    · exact plift_ne _
    · split
      · apply pbind_ne (plift_ne _)
        intro d p1 h1
        have hd := plift_ok h1
        have m1 := parse_decl_facts hd
        have hstrict := decl_strict hg hd
        apply ih _ p1 (m1.2.2 hg)
        unfold R
        rw [m1.1]
        unfold R at hfuel
        omega
      · exact plift_ne _

theorem decls_suff : ∀ p, Good p → ¬ parse_decls p = none := by
  intro p hg
  unfold parse_decls
  apply pbind_ne
  · apply declsLoopF_suff _ [] p hg
    exact Nat.le_refl _
  · intro kids p1 h1
    exact plift_ne _

/-- On an EOF-terminated sequence, `parse_programa` never runs out of
budget: it returns a tree or a syntax fault. -/
theorem programa_suff : ∀ p, Good p → ¬ parse_programa p = none := by
  intro p hg
  unfold parse_programa
  apply pbind_ne (plift_ne _)
  intro n1 p1 h1
  have m1 := eat_ok_facts (plift_ok h1)
  apply pbind_ne (plift_ne _)
  intro n2 p2 h2
  have m2 := eat_ok_facts (plift_ok h2)
  apply pbind_ne (decls_suff p2 (m2.2.2 (m1.2.2 hg)))
  intro n3 p3 h3
  have m3 := preserves_decls p2 n3 p3 h3
  apply pbind_ne (plift_ne _)
  intro n4 p4 h4
  have m4 := eat_ok_facts (plift_ok h4)
  apply pbind_ne (plift_ne _)
  intro n5 p5 h5
  have m5 := eat_ok_facts (plift_ok h5)
  apply pbind_ne (comandos_suff p5 (m5.2.2 (m4.2.2 (m3.2.2 (m2.2.2 (m1.2.2 hg))))))
  intro n6 p6 h6
  apply pbind_ne (plift_ne _)
  intro n7 p7 h7
  exact plift_ne _

end Parser

/-- The two fault kinds a caller can observe (`main.py` catches exactly
`LexicalError` and `SyntaxError_`). -/
inductive Fault where
  | lexical (e : LexicalError)
  | syntactic (e : SyntaxFault)
deriving Repr

/-- The whole analysis as `main.py` drives it: `Parser.__init__` runs
`lexer.tokenize()` eagerly to completion, so a lexical fault is raised
before any parsing step; only on a fully tokenized input does
`parse_programa` run. -/
def analyze (text : String) : Option (Except Fault Node) :=
  match Lexer.tokenize text with
  | none => none
  | some (.error e) => some (.error (.lexical e))
  | some (.ok ts) =>
    match Parser.parse_programa ⟨ts, 0⟩ with
    | none => none
    | some (.error e) => some (.error (.syntactic e))
    | some (.ok (root, _)) => some (.ok root)

/-- Child `i` of a node, if present. -/
def Node.childAt (n : Node) (i : Nat) : Option Node := n.children.get? i

namespace Claims

open Lexer Parser

/-- The token sequence of `"2+3*4"`. -/
def toks234 : List Token :=
  [⟨"NUMBER", some "2", 1, 1⟩, ⟨"PLUS", some "+", 1, 2⟩, ⟨"NUMBER", some "3", 1, 3⟩,
   ⟨"MUL", some "*", 1, 4⟩, ⟨"NUMBER", some "4", 1, 5⟩, ⟨"EOF", none, 1, 5⟩]

/-- The tree `parse_expressao_aritmetica` builds for `"2+3*4"`. -/
def tree234 : Node :=
  .mk "ExpressaoAritmetica"
    [.mk "+"
      [.mk "Termo" [.mk "NUMBER(2)" []],
       .mk "Termo" [.mk "*" [.mk "NUMBER(3)" [], .mk "NUMBER(4)" []]]]]

/-- The token sequence of `"a-b-c"`. -/
def toksAbc : List Token :=
  [⟨"IDENTIFIER", some "a", 1, 1⟩, ⟨"MINUS", some "-", 1, 2⟩, ⟨"IDENTIFIER", some "b", 1, 3⟩,
   ⟨"MINUS", some "-", 1, 4⟩, ⟨"IDENTIFIER", some "c", 1, 5⟩, ⟨"EOF", none, 1, 5⟩]

/-- The tree `parse_expressao_aritmetica` builds for `"a-b-c"`. -/
def treeAbc : Node :=
  .mk "ExpressaoAritmetica"
    [.mk "-"
      [.mk "-"
        [.mk "Termo" [.mk "IDENTIFIER(a)" []],
         .mk "Termo" [.mk "IDENTIFIER(b)" []]],
       .mk "Termo" [.mk "IDENTIFIER(c)" []]]]

/-- Claim C4, counterexample.  On the token sequence of `"2+3*4"` the
parser does respect precedence, but the right child of the `+` node is
not a `*` node: it is the `Termo` wrapper node (whose single child is the
`*` node), so the claim's description of the tree shape is false as
stated. -/
theorem plus_right_child_is_termo_wrapper :
    Lexer.tokenize "2+3*4" = some (.ok toks234) ∧
    Parser.parse_expressao_aritmetica ⟨toks234, 0⟩ = some (.ok (tree234, ⟨toks234, 5⟩)) ∧
    ((tree234.childAt 0).bind (fun n => n.childAt 1)).map Node.label = some "Termo" ∧
    "Termo" ≠ "*" :=
  ⟨rfl, rfl, rfl, by decide⟩

/-- Claim C4, amended.  Parsing `"2+3*4"` yields a tree in which the `+`
node's right child is a `Termo` wrapper node whose single child is a `*`
node (multiplication still binds tighter than addition), and parsing
`"a-b-c"` yields a tree in which the outer `-` node's left child is
itself a `-` node covering `a-b` (left-associativity via the accumulator
rewrap). -/
theorem precedence_and_left_associativity :
    Lexer.tokenize "2+3*4" = some (.ok toks234) ∧
    Parser.parse_expressao_aritmetica ⟨toks234, 0⟩ = some (.ok (tree234, ⟨toks234, 5⟩)) ∧
    Lexer.tokenize "a-b-c" = some (.ok toksAbc) ∧
    Parser.parse_expressao_aritmetica ⟨toksAbc, 0⟩ = some (.ok (treeAbc, ⟨toksAbc, 5⟩)) :=
  ⟨rfl, rfl, rfl, rfl⟩

/-- The token sequence of `"a<b<c"`. -/
def toksRel : List Token :=
  [⟨"IDENTIFIER", some "a", 1, 1⟩, ⟨"LT", some "<", 1, 2⟩, ⟨"IDENTIFIER", some "b", 1, 3⟩,
   ⟨"LT", some "<", 1, 4⟩, ⟨"IDENTIFIER", some "c", 1, 5⟩, ⟨"EOF", none, 1, 5⟩]

/-- The token sequence of `"x=a<b<c"`. -/
def toksAsgRel : List Token :=
  [⟨"IDENTIFIER", some "x", 1, 1⟩, ⟨"ASSIGN", some "=", 1, 2⟩,
   ⟨"IDENTIFIER", some "a", 1, 3⟩, ⟨"LT", some "<", 1, 4⟩, ⟨"IDENTIFIER", some "b", 1, 5⟩,
   ⟨"LT", some "<", 1, 6⟩, ⟨"IDENTIFIER", some "c", 1, 7⟩, ⟨"EOF", none, 1, 7⟩]

/-- Claim C5.  On the token sequence of `"a<b<c"`,
`parse_expressao_relacional` consumes exactly one relational operator
(ending at position 3, the second `<`, which stays unconsumed), and when
the same chain appears as the right-hand side of an assignment command
the second `<` surfaces as the `Comando inválido` syntax fault at the
enclosing statement boundary. -/
theorem relational_does_not_chain :
    Lexer.tokenize "a<b<c" = some (.ok toksRel) ∧
    Parser.parse_expressao_relacional ⟨toksRel, 0⟩ =
      some (.ok (.mk "ExpressaoRelacional"
        [.mk "<"
          [.mk "ExpressaoAritmetica" [.mk "Termo" [.mk "IDENTIFIER(a)" []]],
           .mk "ExpressaoAritmetica" [.mk "Termo" [.mk "IDENTIFIER(b)" []]]]],
        ⟨toksRel, 3⟩)) ∧
    (toksRel.get? 3).map Token.type = some "LT" ∧
    Lexer.tokenize "x=a<b<c" = some (.ok toksAsgRel) ∧
    Parser.parse_comandos ⟨toksAsgRel, 0⟩ =
      some (.error ⟨"Comando inválido", ⟨"LT", some "<", 1, 6⟩⟩) :=
  ⟨rfl, rfl, rfl, rfl, rfl⟩

/-- The token sequence of `"inicio decls fimdecls codigo fimprog 1"`: a
stray `NUMBER` token sits between `FIMPROG` and the end marker. -/
def toksExtra : List Token :=
  [⟨"INICIO", some "inicio", 1, 1⟩, ⟨"DECLS", some "decls", 1, 8⟩,
   ⟨"FIMDECLS", some "fimdecls", 1, 14⟩, ⟨"CODIGO", some "codigo", 1, 23⟩,
   ⟨"FIMPROG", some "fimprog", 1, 30⟩, ⟨"NUMBER", some "1", 1, 38⟩,
   ⟨"EOF", none, 1, 38⟩]

/-- The tree of the minimal valid program (empty declaration and command
sections). -/
def treeMinimal : Node :=
  .mk "Programa"
    [.mk "INICIO(inicio)" [], .mk "DECLS(decls)" [], .mk "Decls" [],
     .mk "FIMDECLS(fimdecls)" [], .mk "CODIGO(codigo)" [], .mk "Comandos" [],
     .mk "FIMPROG(fimprog)" []]

/-- Claim C1, counterexample.  The token sequence of
`"inicio decls fimdecls codigo fimprog 1"` contains an extra `NUMBER`
token between `FIMPROG` and the `EOF` marker, yet `parse_programa`
succeeds on it (stopping at position 5, never checking that the end
marker follows `FIMPROG`), so the claim that parsing succeeds for no such
sequence is false. -/
theorem parse_accepts_extra_tokens_after_fimprog :
    Lexer.tokenize "inicio decls fimdecls codigo fimprog 1" = some (.ok toksExtra) ∧
    (toksExtra.get? 4).map Token.type = some "FIMPROG" ∧
    (toksExtra.get? 5).map Token.type = some "NUMBER" ∧
    (toksExtra.get? 6).map Token.type = some "EOF" ∧
    Parser.parse_programa ⟨toksExtra, 0⟩ = some (.ok (treeMinimal, ⟨toksExtra, 5⟩)) :=
  ⟨rfl, rfl, rfl, rfl, rfl⟩

/-- Claim C3, counterexample.  Tokenizing `"a\n"` succeeds, and the EOF
marker it returns carries column 0: `advance` resets `col` to 0 when it
crosses the final newline and only restores it to 1 if the new position
is still in bounds, so the claim that every returned token (including the
end marker) has a 1-based column is false. -/
theorem eof_column_zero_after_trailing_newline :
    Lexer.tokenize "a\n" =
      some (.ok [⟨"IDENTIFIER", some "a", 1, 1⟩, ⟨"EOF", none, 2, 0⟩]) ∧
    ¬ 1 ≤ (Token.column ⟨"EOF", none, 2, 0⟩) :=
  ⟨rfl, by decide⟩

/-- Claim C2.  The analysis returns exactly one of success tree, lexical
fault or syntax fault; whenever the scanner reports a lexical fault, that
fault is the outcome of the whole analysis (the parser is never reached,
since `Parser.__init__` tokenizes eagerly), even when a syntactically
invalid prefix precedes the lexically faulty position, as in `"+ !"`. -/
theorem lexical_fault_takes_priority :
    (∀ text e, Lexer.tokenize text = some (.error e) →
      analyze text = some (.error (.lexical e))) ∧
    (∀ text r, analyze text = some r →
      (∃ n, r = .ok n) ∨ (∃ e, r = .error (.lexical e)) ∨ (∃ e, r = .error (.syntactic e))) ∧
    analyze "+ !" =
      some (.error (.lexical ⟨"Unexpected '!' (expected '!=')", 1, 3, some '!'⟩)) := by
  refine ⟨fun text e h => ?_, fun text r _ => ?_, rfl⟩
  · unfold analyze
    rw [h]
  · rcases r with f | n
    · rcases f with e | e
      · exact Or.inr (Or.inl ⟨e, rfl⟩)
      · exact Or.inr (Or.inr ⟨e, rfl⟩)
    · exact Or.inl ⟨n, rfl⟩

/-- Witness for the hypotheses of `lexical_fault_takes_priority`: the
lexically faulty input `"1."`. -/
theorem lexical_fault_takes_priority_witness :
    analyze "1." = some (.error (.lexical
      ⟨"Invalid numeric constant: digits required after decimal point", 1, 1, some '.'⟩)) :=
  lexical_fault_takes_priority.1 "1."
    ⟨"Invalid numeric constant: digits required after decimal point", 1, 1, some '.'⟩ rfl

/-- Claim C3, amended.  On every successfully tokenized input, every
token carries a line of at least 1, and every token except possibly the
end marker carries a column of at least 1 (the end marker's column can be
0 when the input ends with a newline). -/
theorem token_positions_positive :
    ∀ (text : String) (ts : List Token), Lexer.tokenize text = some (.ok ts) →
      ∀ t ∈ ts, 1 ≤ t.line ∧ (¬ t.type = "EOF" → 1 ≤ t.column) := by
  intro text ts h t ht
  unfold Lexer.tokenize at h
  exact Lexer.tokenizeF_positions _ _ ts (Lexer.init_Pinv text) h t ht

/-- Witness for `token_positions_positive` at the input `"a\n"` and its
identifier token. -/
theorem token_positions_positive_witness :
    1 ≤ (Token.line ⟨"IDENTIFIER", some "a", 1, 1⟩) ∧
      (¬ (Token.type ⟨"IDENTIFIER", some "a", 1, 1⟩) = "EOF" →
        1 ≤ (Token.column ⟨"IDENTIFIER", some "a", 1, 1⟩)) :=
  token_positions_positive "a\n"
    [⟨"IDENTIFIER", some "a", 1, 1⟩, ⟨"EOF", none, 2, 0⟩] rfl
    ⟨"IDENTIFIER", some "a", 1, 1⟩ (by simp)

/-- Claim C6.  After a complete numeric literal, the whitespace-skipping
lookahead (which skips spaces, tabs and newlines but never comments)
turns a following `.` into a lexical fault: in general any successful
`number` whose non-whitespace successor is `.` makes `get_next_token`
fail at the literal's position; concretely `"1.2.3"` faults (multiple
decimal points, after consuming `"1.2"`), `"1 .5"` and `"1\t\n.5"` fault
(unexpected `.` after number), while a comment shields the `.` as in
`"1 #c\n.5"`, which tokenizes into two numbers. -/
theorem number_dot_lookahead_faults :
    (∀ (s : Lexer.State) (c : Char) (t : Token) (s' : Lexer.State),
      Lexer.current_char s = some c →
      (Lexer.isDigitChar c || (c == '.' && Lexer.peekIsDigit s)) = true →
      Lexer.number s = .ok (t, s') →
      Lexer.peek_next_non_whitespace s' = some '.' →
      Lexer.get_next_token s = some (.error
        ⟨"Invalid numeric constant: unexpected '.' after number", t.line, t.column, some '.'⟩)) ∧
    Lexer.tokenize "1.2.3" = some (.error
      ⟨"Invalid numeric constant: multiple decimal points", 1, 4, some '.'⟩) ∧
    Lexer.tokenize "1 .5" = some (.error
      ⟨"Invalid numeric constant: unexpected '.' after number", 1, 1, some '.'⟩) ∧
    Lexer.tokenize "1\t\n.5" = some (.error
      ⟨"Invalid numeric constant: unexpected '.' after number", 1, 1, some '.'⟩) ∧
    Lexer.tokenize "1 #c\n.5" = some (.ok
      [⟨"NUMBER", some "1", 1, 1⟩, ⟨"NUMBER", some ".5", 2, 1⟩, ⟨"EOF", none, 2, 2⟩]) := by
  refine ⟨fun s c t s' hc hg hn hpk => ?_, rfl, rfl, rfl, rfl⟩
  rw [Lexer.get_next_token_number hc hg, hn]
  simp only
  rw [hpk]
  simp only
  rw [if_pos trivial]

/-- Witness for the general conjunct of `number_dot_lookahead_faults` at
the input `"1 .5"`. -/
theorem number_dot_lookahead_faults_witness :
    Lexer.get_next_token (Lexer.init "1 .5") = some (.error
      ⟨"Invalid numeric constant: unexpected '.' after number", 1, 1, some '.'⟩) :=
  number_dot_lookahead_faults.1 (Lexer.init "1 .5") '1'
    ⟨"NUMBER", some "1", 1, 1⟩ ⟨['1', ' ', '.', '5'], 1, 1, 2⟩ rfl rfl rfl rfl

/-- Claim C7.  A `.` not followed by a digit is a lexical fault at the
literal's own start position with offending character `.`: in leading
position it falls through the dispatch chain to the invalid-character
fault at its own line and column, and after a digit run it makes `number`
fail with the digits-required fault at the run's start position.  The
shapes named by the claim, inputs `"."` and `"1."`, both fault at line 1
column 1 with char `.`. -/
theorem dot_without_digit_faults :
    (∀ s : Lexer.State, Lexer.current_char s = some '.' → Lexer.peekIsDigit s = false →
      Lexer.get_next_token s = some (.error ⟨"Invalid character", s.line, s.col, some '.'⟩)) ∧
    (∀ (s : Lexer.State) (ds rest' : List Char),
      s.text.drop s.pos = ds ++ '.' :: rest' → ¬ ds = [] →
      (∀ c ∈ ds, Lexer.isDigitChar c = true) →
      (∀ c, rest'.head? = some c → Lexer.isDigitChar c = false) →
      Lexer.get_next_token s = some (.error
        ⟨"Invalid numeric constant: digits required after decimal point", s.line, s.col, some '.'⟩)) ∧
    Lexer.tokenize "." = some (.error ⟨"Invalid character", 1, 1, some '.'⟩) ∧
    Lexer.tokenize "1." = some (.error
      ⟨"Invalid numeric constant: digits required after decimal point", 1, 1, some '.'⟩) := by
  refine ⟨fun s hc hpd => Lexer.get_next_token_lone_dot hc hpd,
    fun s ds rest' hdrop hne hds hrest => ?_, rfl, rfl⟩
  obtain ⟨d, ds0, rfl⟩ : ∃ d ds0, ds = d :: ds0 := by
    cases ds with
    | nil => exact absurd rfl hne
    | cons d ds0 => exact ⟨d, ds0, rfl⟩
  have hcur : Lexer.current_char s = some d := by
    rw [Lexer.current_char_eq_head_drop, hdrop]
    rfl
  have hg : (Lexer.isDigitChar d || (d == '.' && Lexer.peekIsDigit s)) = true := by
    rw [hds d (by simp)]
    simp
  rw [Lexer.get_next_token_number hcur hg,
    Lexer.number_trailing_dot hdrop hne hds hrest]

/-- Witness for the two general conjuncts of `dot_without_digit_faults`
at the inputs `"."` and `"1."`. -/
theorem dot_without_digit_faults_witness :
    Lexer.get_next_token (Lexer.init ".") =
      some (.error ⟨"Invalid character", 1, 1, some '.'⟩) ∧
    Lexer.get_next_token (Lexer.init "1.") = some (.error
      ⟨"Invalid numeric constant: digits required after decimal point", 1, 1, some '.'⟩) :=
  ⟨dot_without_digit_faults.1 (Lexer.init ".") rfl rfl,
   dot_without_digit_faults.2.1 (Lexer.init "1.") ['1'] [] rfl (by simp)
     (by intro c hc; simp at hc; subst hc; rfl) (by intro c hc; simp at hc)⟩

/-- Claim C8.  An unterminated block comment is a lexical fault carrying
the line and column of the `/*` that opened it (first conjunct: whenever
no `*/` pair occurs after the opener, both `skip_block_comment` and the
whole `get_next_token` fail at the opening position); a closed block
comment — spanning lines or not — is consumed silently and produces no
token (second conjunct: `get_next_token` is simply the next token after
the comment; third conjunct: a concrete multi-line comment followed by
`x` tokenizes into just the identifier and the end marker). -/
theorem block_comment_faults_at_opening :
    (∀ s : Lexer.State, Lexer.current_char s = some '/' → Lexer.peek s 1 = some '*' →
      Lexer.NoClose s.text (s.pos + 2) →
      Lexer.skip_block_comment s = .error ⟨"Unterminated block comment", s.line, s.col, none⟩ ∧
      Lexer.get_next_token s = some (.error ⟨"Unterminated block comment", s.line, s.col, none⟩)) ∧
    (∀ (s : Lexer.State) (i : Nat), Lexer.current_char s = some '/' → Lexer.peek s 1 = some '*' →
      s.pos + 2 ≤ i → s.text.get? i = some '*' → s.text.get? (i + 1) = some '/' →
      ∃ s', Lexer.skip_block_comment s = .ok s' ∧
        Lexer.get_next_token s = Lexer.get_next_token s') ∧
    Lexer.tokenize "/* never closes" = some (.error ⟨"Unterminated block comment", 1, 1, none⟩) ∧
    Lexer.tokenize "/* a\nb */x" =
      some (.ok [⟨"IDENTIFIER", some "x", 2, 5⟩, ⟨"EOF", none, 2, 5⟩]) := by
  refine ⟨fun s hc hpk hnc => ?_, fun s i hc hpk hge hstar hslash => ?_, rfl, rfl⟩
  · refine ⟨Lexer.skip_block_comment_unterminated hnc, ?_⟩
    rw [Lexer.get_next_token_block hc hpk, Lexer.skip_block_comment_unterminated hnc]
  · obtain ⟨s', hs'⟩ := Lexer.skip_block_comment_closed hge hstar hslash
    exact ⟨s', hs', by rw [Lexer.get_next_token_block hc hpk, hs']⟩

/-- Witness for the two general conjuncts of
`block_comment_faults_at_opening` at the inputs `"/*"` and `"/**/x"`. -/
theorem block_comment_faults_at_opening_witness :
    (Lexer.skip_block_comment (Lexer.init "/*") =
        .error ⟨"Unterminated block comment", 1, 1, none⟩ ∧
      Lexer.get_next_token (Lexer.init "/*") =
        some (.error ⟨"Unterminated block comment", 1, 1, none⟩)) ∧
    (∃ s', Lexer.skip_block_comment (Lexer.init "/**/x") = .ok s' ∧
      Lexer.get_next_token (Lexer.init "/**/x") = Lexer.get_next_token s') := by
  constructor
  · exact block_comment_faults_at_opening.1 (Lexer.init "/*") rfl rfl
      (by
        intro i hi hpair
        rw [List.get?_eq_none.mpr (by simp [Lexer.init, Lexer.normalizeNewlines]; omega)] at hpair
        exact absurd hpair.1 (by simp))
  · exact block_comment_faults_at_opening.2.1 (Lexer.init "/**/x") 2 rfl rfl
      (by simp [Lexer.init]) rfl rfl

/-- The token sequence of the minimal valid program
`"inicio decls fimdecls codigo fimprog"`. -/
def toksMin : List Token :=
  [⟨"INICIO", some "inicio", 1, 1⟩, ⟨"DECLS", some "decls", 1, 8⟩,
   ⟨"FIMDECLS", some "fimdecls", 1, 14⟩, ⟨"CODIGO", some "codigo", 1, 23⟩,
   ⟨"FIMPROG", some "fimprog", 1, 30⟩, ⟨"EOF", none, 1, 36⟩]

/-- Claim C1, amended.  On every EOF-terminated token sequence on which
`parse_programa` succeeds, the parse consumes every token up to and
including the final `FIMPROG` keyword: the final position is at least 1,
still in bounds, and the token just before it is the consumed `FIMPROG`.
(The parse does not check that the end marker follows, as the
counterexample shows.) -/
theorem parse_consumes_through_fimprog :
    ∀ (ts : List Token) (root : Node) (p' : Parser.State),
      Parser.EOFLast ts →
      Parser.parse_programa ⟨ts, 0⟩ = some (.ok (root, p')) →
      p'.tokens = ts ∧ 1 ≤ p'.pos ∧ p'.pos < ts.length ∧
        (ts.get? (p'.pos - 1)).map Token.type = some "FIMPROG" := by
  intro ts root p' hlast h
  have hg0 : Parser.Good ⟨ts, 0⟩ := ⟨hlast, List.length_pos.mpr hlast.ne_nil⟩
  unfold Parser.parse_programa at h
  obtain ⟨n1, p1, h1, h⟩ := Parser.pbind_ok h
  obtain ⟨n2, p2, h2, h⟩ := Parser.pbind_ok h
  obtain ⟨n3, p3, h3, h⟩ := Parser.pbind_ok h
  obtain ⟨n4, p4, h4, h⟩ := Parser.pbind_ok h
  obtain ⟨n5, p5, h5, h⟩ := Parser.pbind_ok h
  obtain ⟨n6, p6, h6, h⟩ := Parser.pbind_ok h
  obtain ⟨n7, p7, h7, h⟩ := Parser.pbind_ok h
  obtain ⟨_, hq⟩ := Parser.plift_ok_inv h
  subst hq
  have m1 := Parser.eat_ok_facts (Parser.plift_ok h1)
  have m2 := Parser.eat_ok_facts (Parser.plift_ok h2)
  have m3 := Parser.preserves_decls p2 n3 p3 h3
  have m4 := Parser.eat_ok_facts (Parser.plift_ok h4)
  have m5 := Parser.eat_ok_facts (Parser.plift_ok h5)
  have m6 := Parser.preserves_comandos p5 n6 p6 h6
  have hg6 : Parser.Good p6 :=
    m6.2.2 (m5.2.2 (m4.2.2 (m3.2.2 (m2.2.2 (m1.2.2 hg0)))))
  have he7 := Parser.eat_ok (Parser.plift_ok h7)
  have hs7 := Parser.eat_strict hg6 (by decide) (Parser.plift_ok h7)
  have htokens : p7.tokens = ts := by
    rw [he7.2, Parser.advance_tokens, m6.1, m5.1, m4.1, m3.1, m2.1, m1.1]
  have hget : p6.tokens.get? p6.pos = some (Parser.current_token p6) :=
    Parser.current_token_get? hg6.2
  have htok6 : p6.tokens = ts := by
    rw [m6.1, m5.1, m4.1, m3.1, m2.1, m1.1]
  refine ⟨htokens, by omega, ?_, ?_⟩
  · have hg7 : Parser.Good p7 := by
      rw [he7.2]
      exact Good_advance hg6
    have := hg7.2
    rw [htokens] at this
    exact this
  · rw [hs7]
    simp only [Nat.add_sub_cancel]
    rw [← htok6, hget, Option.map_some']
    rw [he7.1]

/-- Witness for `parse_consumes_through_fimprog` at the minimal valid
program. -/
theorem parse_consumes_through_fimprog_witness :
    (Parser.State.tokens ⟨toksMin, 5⟩) = toksMin ∧ 1 ≤ 5 ∧ (5 : Nat) < toksMin.length ∧
      (toksMin.get? (5 - 1)).map Token.type = some "FIMPROG" :=
  parse_consumes_through_fimprog toksMin treeMinimal ⟨toksMin, 5⟩ rfl rfl

/-- Claim C9.  The analysis always terminates: the scanner's iteration
budgets always suffice (`tokenize` returns a token list or a lexical
fault on every input), and on every token sequence whose last element is
the EOF marker — as every `tokenize` output is — the parser's budgets
suffice as well, because every loop iteration consumes at least one token
or raises. -/
theorem analysis_terminates :
    (∀ text : String, (Lexer.tokenize text).isSome) ∧
    (∀ ts : List Token, Parser.EOFLast ts →
      (Parser.parse_programa ⟨ts, 0⟩).isSome) := by
  refine ⟨Lexer.tokenize_isSome, fun ts hlast => ?_⟩
  have hg0 : Parser.Good ⟨ts, 0⟩ := ⟨hlast, List.length_pos.mpr hlast.ne_nil⟩
  exact Option.ne_none_iff_isSome.mp (Parser.programa_suff _ hg0)

/-- Witness for `analysis_terminates` at the minimal valid program's
token sequence. -/
theorem analysis_terminates_witness :
    (Parser.parse_programa ⟨toksMin, 0⟩).isSome :=
  analysis_terminates.2 toksMin rfl

/-- Claim C10.  The parser never reads past the end of the token
sequence: `tokenize` always returns a non-empty list ending in the EOF
marker, `Parser.advance` moves only while strictly before the last
position (so an in-bounds cursor stays in bounds and pins at the end),
and `peek_next_type` answers `none` rather than faulting past the end. -/
theorem parser_never_reads_past_end :
    (∀ (text : String) (ts : List Token), Lexer.tokenize text = some (.ok ts) →
      ¬ ts = [] ∧ (ts.getLast?).map Token.type = some "EOF") ∧
    (∀ p : Parser.State, p.pos < p.tokens.length - 1 →
      Parser.advance p = ⟨p.tokens, p.pos + 1⟩) ∧
    (∀ p : Parser.State, ¬ p.pos < p.tokens.length - 1 → Parser.advance p = p) ∧
    (∀ p : Parser.State, p.pos < p.tokens.length →
      (Parser.advance p).pos < p.tokens.length) ∧
    (∀ (p : Parser.State) (off : Nat), p.tokens.length ≤ p.pos + off →
      Parser.peek_next_type p off = none) := by
  refine ⟨?_, ?_, ?_, ?_, ?_⟩
  · intro text ts h
    unfold Lexer.tokenize at h
    exact Lexer.tokenizeF_last_eof _ _ ts h
  · intro p h
    unfold Parser.advance
    rw [if_pos h]
  · intro p h
    unfold Parser.advance
    rw [if_neg h]
  · intro p h
    exact Parser.advance_pos_lt h
  · intro p off h
    unfold Parser.peek_next_type
    rw [dif_neg (by omega)]

/-- Witness for `parser_never_reads_past_end` at small concrete inputs. -/
theorem parser_never_reads_past_end_witness :
    (¬ ([⟨"NUMBER", some "1", 1, 1⟩, ⟨"EOF", none, 1, 1⟩] : List Token) = [] ∧
      (([⟨"NUMBER", some "1", 1, 1⟩, ⟨"EOF", none, 1, 1⟩] : List Token).getLast?).map
        Token.type = some "EOF") ∧
    Parser.advance ⟨toksMin, 2⟩ = ⟨toksMin, 3⟩ ∧
    Parser.advance ⟨toksMin, 5⟩ = ⟨toksMin, 5⟩ ∧
    Parser.peek_next_type ⟨toksMin, 5⟩ 1 = none :=
  ⟨parser_never_reads_past_end.1 "1" _ rfl,
   parser_never_reads_past_end.2.1 ⟨toksMin, 2⟩ (by decide),
   parser_never_reads_past_end.2.2.1 ⟨toksMin, 5⟩ (by decide),
   parser_never_reads_past_end.2.2.2.2 ⟨toksMin, 5⟩ 1 (by decide)⟩

end Claims

end Analisador
